import Mathlib

/-!
# Double area of mesh triangles (`igl::doublearea`)

A shallow embedding of `src/include/igl/doublearea.cpp`, in two arithmetics.

* Exact arithmetic.  Scalars are an ordered field `K` (the template parameter `Scalar`);
  the library function `sqrt` is a parameter `sqrt : K → K`.  Theorems that depend on
  the value of a square root take `K` to be the real numbers and `sqrt` to be
  `Real.sqrt`.  A result that may be NaN is an `Option K`: `none` is NaN, which in
  exact arithmetic can only arise from `sqrt` at a negative argument.  Statements about
  these definitions are statements about the formulas in exact arithmetic.
* `double` arithmetic.  The type `F64` holds the IEEE 754 binary64 values, and the
  definitions with the suffix `_f64` repeat the same source lines with every operation
  rounded.  They give the values the compiled code returns, and are used where these
  leave the exact ones.
* `assert` is modelled by a flag `asserts` (`true`: assertions compiled in, `false`:
  `NDEBUG`); a failed assertion aborts the call with an `AssertFailure`.
-/

namespace igl

/-- The assertions of `doublearea.cpp` that can abort a call. -/
inductive AssertFailure where
  /-- Failure of `assert(F.cols() == 3)` or of `assert(ul.cols() == 3)`. -/
  | notTriangles
  /-- Failure of `assert(l(i,2) - (l(i,0)-l(i,1)) && "FAILED KAHAN'S ASSERTION")`. -/
  | kahan
  /-- Failure of `assert(dblA(i) == dblA(i) && "DOUBLEAREA() PRODUCED NaN")`. -/
  | producedNaN
  deriving DecidableEq, Repr

/-- A dense table (`Eigen::PlainObjectBase`): its size and its coefficient access
`coeff i j` (written `M(i,j)` in the source). -/
structure Mat (α : Type) where
  rows : Nat
  cols : Nat
  coeff : Nat → Nat → α

/-- A table given by its rows, each of `c` columns (entries outside are `d`). -/
def Mat.ofRows {α : Type} (d : α) (c : Nat) (rs : List (List α)) : Mat α :=
  ⟨rs.length, c, fun i j => (rs.getD i []).getD j d⟩

section Model

variable {K : Type} [LinearOrderedField K]

/-- The square root in exact arithmetic: NaN (`none`) at a negative argument, the exact
root otherwise.  (`F64.sqrt` is the rounded one.) -/
def fsqrt (sqrt : K → K) (x : K) : Option K :=
  if x < 0 then none else some (sqrt x)

/-- A loop `for(int i = 0; i < m; i++)` whose body may abort: the results of the
iterations in order, or the first failure. -/
def forRows {ε β : Type} (body : Nat → Except ε β) : List Nat → Except ε (List β)
  | [] => .ok []
  | i :: is =>
    match body i with
    | .error e => .error e
    | .ok v =>
      match forRows body is with
      | .error e => .error e
      | .ok vs => .ok (v :: vs)

/-- Case 2 of `doublearea(V,F,dblA)` (lines 44-54) in exact arithmetic (`doublearea2_f64`
is the same in `double` arithmetic): for each triangle `f`,
`r = V.row(F(f,0))-V.row(F(f,2))`, `s = V.row(F(f,1))-V.row(F(f,2))` and
`dblA(f) = r(0)*s(1) - r(1)*s(0)`. -/
def doublearea2 (V : Mat K) (F : Mat Nat) : List K :=
  (List.range F.rows).map fun f =>
    let r : Nat → K := fun k => V.coeff (F.coeff f 0) k - V.coeff (F.coeff f 2) k
    let s : Nat → K := fun k => V.coeff (F.coeff f 1) k - V.coeff (F.coeff f 2) k
    r 0 * s 1 - r 1 * s 0

/-- The two-column table `Vd << V.col(d), V.col((d+1)%3)` of line 36. -/
def colPair (V : Mat K) (d : Nat) : Mat K :=
  ⟨V.rows, 2, fun i k => if k = 0 then V.coeff i d else V.coeff i ((d + 1) % 3)⟩

/-- Case 3 of `doublearea(V,F,dblA)` (lines 30-43) in exact arithmetic (`doublearea3_f64`
is the same in `double` arithmetic): `dblA` starts as zeros; for
`d = 0,1,2` the squares of the 2D double areas of `Vd` are added; finally the square
root is taken entry by entry.  The inner call `doublearea(Vd,F,dblAd)` is on a table
of two columns, so it runs `case 2`. -/
def doublearea3 (sqrt : K → K) (V : Mat K) (F : Mat Nat) : List (Option K) :=
  let acc := (List.range 3).foldl
    (fun (dblA : List K) d =>
      List.zipWith (fun a x => a + x * x) dblA (doublearea2 (colPair V d) F))
    (List.replicate F.rows 0)
  acc.map (fsqrt sqrt)

/-- Modelled from the spec: the edge-length extraction collaborator `edge_lengths`
(`edge_lengths.h` is not among the sources).  The distance between the vertices in
rows `p` and `q` of `V`. -/
def distance (sqrt : K → K) (V : Mat K) (p q : Nat) : K :=
  sqrt (∑ k in Finset.range V.cols, (V.coeff p k - V.coeff q k) ^ 2)

/-- Modelled from the spec: the edge-length extraction collaborator `edge_lengths`
(`edge_lengths.h` is not among the sources): one row of three lengths per triangle,
"length(0) = distance(v1,v2), length(1) = distance(v0,v2), length(2) =
distance(v0,v1)". -/
def edge_lengths (sqrt : K → K) (V : Mat K) (F : Mat Nat) : Mat K :=
  ⟨F.rows, 3, fun i k =>
    if k = 0 then distance sqrt V (F.coeff i 1) (F.coeff i 2)
    else if k = 1 then distance sqrt V (F.coeff i 0) (F.coeff i 2)
    else distance sqrt V (F.coeff i 0) (F.coeff i 1)⟩

/-- Row `i` of a table as a list. -/
def Mat.row {α : Type} (M : Mat α) (i : Nat) : List α :=
  (List.range M.cols).map (M.coeff i)

/-- Modelled from the spec: the sort collaborator `sort(ul,2,false,l,_)` (`sort.h` is
not among the sources): "Sort the three lengths into descending order per triangle
(not globally)".  Every row is sorted on its own into descending order. -/
def sort (ul : Mat K) : Mat K :=
  ⟨ul.rows, ul.cols, fun i k => ((ul.row i).insertionSort (fun x y => y ≤ x)).getD k 0⟩

/-- The radicand `arg` of lines 90-94 (Kahan's form of Heron's formula) in exact
arithmetic. -/
def kahanArg (l0 l1 l2 : K) : K :=
  (l0 + (l1 + l2)) * (l2 - (l0 - l1)) * (l2 + (l0 - l1)) * (l0 + (l1 - l2))

/-- The value `dblA(i) = 2.0*0.25*sqrt(arg)` of line 95 for the sorted row `i`, in exact
arithmetic (`kernelValue_f64` is the same in `double` arithmetic). -/
def kernelValue (sqrt : K → K) (l : Mat K) (i : Nat) : Option K :=
  (fsqrt sqrt (kahanArg (l.coeff i 0) (l.coeff i 1) (l.coeff i 2))).map
    fun r => 2 * (1 / 4) * r

/-- The body of the loop of lines 82-98 on the sorted table `l`, in exact arithmetic: the
value of row
`i`, after the two assertions of lines 96 and 97 when they are compiled in.  The
first converts `l(i,2) - (l(i,0)-l(i,1))` to a truth value: it fails when the
difference is zero.  The second fails when `dblA(i)` is NaN. -/
def kernelRow (sqrt : K → K) (asserts : Bool) (l : Mat K) (i : Nat) :
    Except AssertFailure (Option K) :=
  let v := kernelValue sqrt l i
  if asserts && decide (l.coeff i 2 - (l.coeff i 0 - l.coeff i 1) = 0) then
    .error .kahan
  else if asserts && v.isNone then
    .error .producedNaN
  else
    .ok v

/-- The edge-length kernel `doublearea(ul,dblA)` (lines 63-99) in exact arithmetic: the
entry assertion,
the row-wise descending sort, then one value per row.  (The semiperimeters `s` of
line 78 are only used by `assert(s.rows() == m)`, which cannot fail.) -/
def doublearea_l (sqrt : K → K) (asserts : Bool) (ul : Mat K) :
    Except AssertFailure (List (Option K)) :=
  if asserts && decide (ul.cols ≠ 3) then .error .notTriangles
  else forRows (kernelRow sqrt asserts (sort ul)) (List.range ul.rows)

/-- The dispatcher `doublearea(V,F,dblA)` (lines 14-61) on `dim = V.cols()`, in exact
arithmetic: the entry
assertion, then case 3, case 2 or, by default, the kernel on the measured edge
lengths. -/
def doublearea (sqrt : K → K) (asserts : Bool) (V : Mat K) (F : Mat Nat) :
    Except AssertFailure (List (Option K)) :=
  if asserts && decide (F.cols ≠ 3) then .error .notTriangles
  else
    match V.cols with
    | 3 => .ok (doublearea3 sqrt V F)
    | 2 => .ok ((doublearea2 V F).map some)
    | _ => doublearea_l sqrt asserts (edge_lengths sqrt V F)

/-- The commented-out naive formula of lines 84-88: with `s` the semiperimeter,
`arg = s*(s-l0)*(s-l1)*(s-l2)` and `dblA = 2.0*sqrt(arg)`. -/
def heronDoubleArea (sqrt : K → K) (l0 l1 l2 : K) : K :=
  let s := (l0 + l1 + l2) * (1 / 2)
  2 * sqrt (s * (s - l0) * (s - l1) * (s - l2))

/-- Coordinate `k` of corner `i` of triangle `f`: `V(F(f,i),k)`. -/
def corner (V : Mat K) (F : Mat Nat) (f i k : Nat) : K :=
  V.coeff (F.coeff f i) k

/-- The 2D cross product `(p - o) × (q - o)` of points given by coordinates. -/
def cross2 (px py qx qy ox oy : K) : K :=
  (px - ox) * (qy - oy) - (py - oy) * (qx - ox)

/-- The signed double area of triangle `f` projected onto the coordinate pair
`(j, k)`: the 2D cross product of the projected edge vectors `v0 - v2`, `v1 - v2`. -/
def projArea (V : Mat K) (F : Mat Nat) (f j k : Nat) : K :=
  cross2 (corner V F f 0 j) (corner V F f 0 k) (corner V F f 1 j) (corner V F f 1 k)
    (corner V F f 2 j) (corner V F f 2 k)

/-- The 3D cross product `r × s`, by components. -/
def cross3 (r s : Nat → K) : K × K × K :=
  (r 1 * s 2 - r 2 * s 1, r 2 * s 0 - r 0 * s 2, r 0 * s 1 - r 1 * s 0)

/-- The Euclidean norm of a vector of three components. -/
def norm3 (sqrt : K → K) (c : K × K × K) : K :=
  sqrt (c.1 ^ 2 + c.2.1 ^ 2 + c.2.2 ^ 2)

/-- The triangle table with corners `i` and `j` of every triangle exchanged. -/
def swapCorners (F : Mat Nat) (i j : Nat) : Mat Nat :=
  ⟨F.rows, F.cols, fun f k => F.coeff f (if k = i then j else if k = j then i else k)⟩

/-- Counter-clockwise winding of triangle `f` of a 2D table: `v2` lies strictly to the
left of the directed line from `v0` to `v1`, that is `(v1 - v0) × (v2 - v0) > 0`. -/
def ccw (V : Mat K) (F : Mat Nat) (f : Nat) : Prop :=
  0 < cross2 (corner V F f 1 0) (corner V F f 1 1) (corner V F f 2 0) (corner V F f 2 1)
    (corner V F f 0 0) (corner V F f 0 1)

/-- The corners of triangle `f` of a 2D table lie on one line: `v2 = v0 + t*(v1 - v0)`
for some `t`, or `v0 = v1`. -/
def collinear (V : Mat K) (F : Mat Nat) (f : Nat) : Prop :=
  (∃ t : K, ∀ k, k < 2 →
      corner V F f 2 k = corner V F f 0 k + t * (corner V F f 1 k - corner V F f 0 k))
    ∨ (∀ k, k < 2 → corner V F f 0 k = corner V F f 1 k)

/-- The vertex table moved rigidly: every vertex `v` (a row of three coordinates) is
replaced by `R*v + t`. -/
def rigidMotion (R : Matrix (Fin 3) (Fin 3) K) (t : Fin 3 → K) (V : Mat K) : Mat K :=
  ⟨V.rows, V.cols, fun i k =>
    if h : k < 3 then (∑ j : Fin 3, R ⟨k, h⟩ j * V.coeff i j) + t ⟨k, h⟩ else V.coeff i k⟩

/-- The table with its rows rearranged: row `i` of the result is row `p i`. -/
def permuteRows {α : Type} (M : Mat α) (p : Equiv.Perm (Fin M.rows)) : Mat α :=
  ⟨M.rows, M.cols, fun i k => if h : i < M.rows then M.coeff (p ⟨i, h⟩) k else M.coeff i k⟩

/-- The 2D vertex table extended by a third coordinate equal to zero. -/
def extendZero (V : Mat K) : Mat K :=
  ⟨V.rows, 3, fun i k => if k < 2 then V.coeff i k else 0⟩

end Model

/-! ## The same source in `double` arithmetic

The explicit instantiations of lines 104-108 take `float` and `double` scalars.  The
definitions of this section repeat the source lines with every arithmetic operation
rounded as IEEE 754 binary64 prescribes (round to nearest, ties to even, overflow to an
infinity, gradual underflow, signed zeros, NaN). -/

section Double

/-- An IEEE 754 binary64 value (`double`): NaN, an infinity, or the finite value
`(-1)^neg * m * 2^e`.  The values of the type are the canonical ones, `m < 2^53`,
`-1074 ≤ e ≤ 971`, and `2^52 ≤ m` unless `e = -1074` (`F64.canonical`); the signed zeros
are `fin neg 0 (-1074)`. -/
inductive F64 where
  | nan : F64
  | inf (neg : Bool) : F64
  | fin (neg : Bool) (m : Nat) (e : Int) : F64
  deriving DecidableEq, Repr

namespace F64

/-- The canonical representations: those that denote a `double`. -/
def canonical : F64 → Bool
  | nan => true
  | inf _ => true
  | fin _ m e => decide (m < 2 ^ 53 ∧ -1074 ≤ e ∧ e ≤ 971 ∧ (2 ^ 52 ≤ m ∨ e = -1074))

/-- Positive zero. -/
def zero : F64 := fin false 0 (-1074)

def isNaN : F64 → Bool
  | nan => true
  | _ => false

/-- Conversion to a truth value: every value but the two zeros is true. -/
def toBool : F64 → Bool
  | fin _ 0 _ => false
  | _ => true

/-- The position of the leading bit of `m`, for `0 < m < 2^8192`. -/
def ilog2 (m : Nat) : Nat :=
  ([4096, 2048, 1024, 512, 256, 128, 64, 32, 16, 8, 4, 2, 1].foldl
    (fun (p : Nat × Nat) k => if 2 ^ k ≤ p.1 then (p.1 / 2 ^ k, p.2 + k) else p) (m, 0)).2

/-- Rounding to nearest, ties to even: the `double` nearest to `(-1)^neg * m * 2^e`, for
`m < 2^8192`.  The exponent `e1` of the result is that of the leading bit minus 52, and
at least -1074 (gradual underflow); the bits of `m` below `2^e1` are rounded away, a
carry out of 53 bits raises the exponent, and an exponent above 971 is an overflow. -/
def round (neg : Bool) (m : Nat) (e : Int) : F64 :=
  if m = 0 then fin neg 0 (-1074)
  else
    let e1 : Int := max ((ilog2 m : Int) + e - 52) (-1074)
    if e1 ≤ e then
      if 971 < e1 then inf neg else fin neg (m * 2 ^ (e - e1).toNat) e1
    else
      let s : Nat := (e1 - e).toNat
      let q : Nat := m / 2 ^ s
      let r : Nat := m % 2 ^ s
      let h : Nat := 2 ^ (s - 1)
      let q1 : Nat := if h < r ∨ (r = h ∧ q % 2 = 1) then q + 1 else q
      if q1 = 2 ^ 53 then
        (if 971 < e1 + 1 then inf neg else fin neg (2 ^ 52) (e1 + 1))
      else
        (if 971 < e1 then inf neg else fin neg q1 e1)

/-- The `double` nearest to `n * 2^k`. -/
def scaled (n : Int) (k : Int) : F64 := round (decide (n < 0)) n.natAbs k

def ofInt (n : Int) : F64 := scaled n 0

def neg : F64 → F64
  | nan => nan
  | inf s => inf (!s)
  | fin s m e => fin (!s) m e

def add : F64 → F64 → F64
  | nan, _ => nan
  | _, nan => nan
  | inf s, inf t => if s = t then inf s else nan
  | inf s, fin _ _ _ => inf s
  | fin _ _ _, inf t => inf t
  | fin s m e, fin t n f =>
    let g : Int := min e f
    let a : Int := if s then -((m * 2 ^ (e - g).toNat : Nat) : Int)
      else ((m * 2 ^ (e - g).toNat : Nat) : Int)
    let b : Int := if t then -((n * 2 ^ (f - g).toNat : Nat) : Int)
      else ((n * 2 ^ (f - g).toNat : Nat) : Int)
    let c : Int := a + b
    if c = 0 then fin (s && t) 0 (-1074) else round (decide (c < 0)) c.natAbs g

def sub (x y : F64) : F64 := add x (neg y)

def mul : F64 → F64 → F64
  | nan, _ => nan
  | _, nan => nan
  | inf s, inf t => inf (xor s t)
  | inf s, fin t n _ => if n = 0 then nan else inf (xor s t)
  | fin s m _, inf t => if m = 0 then nan else inf (xor s t)
  | fin s m e, fin t n f => round (xor s t) (m * n) (e + f)

/-- Bit by bit integer square root: the result of trying the bits below `i`. -/
def isqrtAux (M : Nat) : Nat → Nat → Nat
  | 0, r => r
  | i + 1, r => isqrtAux M i (if (r + 2 ^ i) * (r + 2 ^ i) ≤ M then r + 2 ^ i else r)

/-- The integer square root (rounded down). -/
def isqrt (M : Nat) : Nat := isqrtAux M (ilog2 M / 2 + 1) 0

def sqrt : F64 → F64
  | nan => nan
  | inf s => if s then nan else inf false
  | fin s m e =>
    if m = 0 then fin s 0 (-1074)
    else if s then nan
    else
      let t : Nat := if e % 2 = 0 then 120 else 121
      let M : Nat := m * 2 ^ t
      let r : Nat := isqrt M
      let sticky : Nat := if r * r = M then 0 else 1
      round false (2 * r + sticky) ((e - t) / 2 - 1)

/-- The order key of a value, in units of `2^-1074`; NaN is placed below everything. -/
def key : F64 → Int
  | nan => -(2 ^ 2101)
  | inf s => if s then -(2 ^ 2100) else 2 ^ 2100
  | fin s m e => if s then -((m * 2 ^ (e + 1074).toNat : Nat) : Int)
      else ((m * 2 ^ (e + 1074).toNat : Nat) : Int)

end F64

/-- Case 2 of `doublearea(V,F,dblA)` (lines 44-54) in `double` arithmetic: for each
triangle `f`, `r = V.row(F(f,0))-V.row(F(f,2))`, `s = V.row(F(f,1))-V.row(F(f,2))` and
`dblA(f) = r(0)*s(1) - r(1)*s(0)`, every difference and product rounded. -/
def doublearea2_f64 (V : Mat F64) (F : Mat Nat) : List F64 :=
  (List.range F.rows).map fun f =>
    let r : Nat → F64 := fun k => F64.sub (V.coeff (F.coeff f 0) k) (V.coeff (F.coeff f 2) k)
    let s : Nat → F64 := fun k => F64.sub (V.coeff (F.coeff f 1) k) (V.coeff (F.coeff f 2) k)
    F64.sub (F64.mul (r 0) (s 1)) (F64.mul (r 1) (s 0))

/-- The two-column table `Vd << V.col(d), V.col((d+1)%3)` of line 36. -/
def colPair_f64 (V : Mat F64) (d : Nat) : Mat F64 :=
  ⟨V.rows, 2, fun i k => if k = 0 then V.coeff i d else V.coeff i ((d + 1) % 3)⟩

/-- Case 3 of `doublearea(V,F,dblA)` (lines 30-43) in `double` arithmetic: `dblA` starts
as zeros; for `d = 0,1,2` the rounded squares of the 2D values of `Vd` are added; finally
the rounded square root is taken entry by entry. -/
def doublearea3_f64 (V : Mat F64) (F : Mat Nat) : List F64 :=
  let acc := (List.range 3).foldl
    (fun (dblA : List F64) d =>
      List.zipWith (fun a x => F64.add a (F64.mul x x)) dblA
        (doublearea2_f64 (colPair_f64 V d) F))
    (List.replicate F.rows F64.zero)
  acc.map F64.sqrt

/-- Modelled from the spec: the edge-length extraction collaborator `edge_lengths`
(`edge_lengths.h` is not among the sources).  The distance of two rows in `double`
arithmetic; the squared differences are summed from left to right. -/
def distance_f64 (V : Mat F64) (p q : Nat) : F64 :=
  F64.sqrt ((List.range V.cols).foldl
    (fun acc k => F64.add acc
      (F64.mul (F64.sub (V.coeff p k) (V.coeff q k)) (F64.sub (V.coeff p k) (V.coeff q k))))
    F64.zero)

/-- Modelled from the spec: the edge-length extraction collaborator `edge_lengths`
(`edge_lengths.h` is not among the sources) in `double` arithmetic, with the lengths in
the order of the spec: opposite corner 0, 1, 2. -/
def edge_lengths_f64 (V : Mat F64) (F : Mat Nat) : Mat F64 :=
  ⟨F.rows, 3, fun i k =>
    if k = 0 then distance_f64 V (F.coeff i 1) (F.coeff i 2)
    else if k = 1 then distance_f64 V (F.coeff i 0) (F.coeff i 2)
    else distance_f64 V (F.coeff i 0) (F.coeff i 1)⟩

/-- Modelled from the spec: the sort collaborator `sort(ul,2,false,l,_)` (`sort.h` is not
among the sources) on `double` values: every row is sorted on its own into descending
order; a NaN is placed last. -/
def sort_f64 (ul : Mat F64) : Mat F64 :=
  ⟨ul.rows, ul.cols, fun i k =>
    ((ul.row i).insertionSort (fun x y => F64.key y ≤ F64.key x)).getD k F64.zero⟩

/-- The radicand `arg` of lines 90-94 in `double` arithmetic: the four factors are
multiplied from left to right. -/
def kahanArg_f64 (l0 l1 l2 : F64) : F64 :=
  F64.mul (F64.mul (F64.mul (F64.add l0 (F64.add l1 l2)) (F64.sub l2 (F64.sub l0 l1)))
    (F64.add l2 (F64.sub l0 l1))) (F64.add l0 (F64.sub l1 l2))

/-- The value `dblA(i) = 2.0*0.25*sqrt(arg)` of line 95 in `double` arithmetic. -/
def kernelValue_f64 (l : Mat F64) (i : Nat) : F64 :=
  F64.mul (F64.mul (F64.ofInt 2) (F64.scaled 1 (-2)))
    (F64.sqrt (kahanArg_f64 (l.coeff i 0) (l.coeff i 1) (l.coeff i 2)))

/-- The body of the loop of lines 82-98 in `double` arithmetic: the assertion of line 96
fails when `l(i,2) - (l(i,0)-l(i,1))` is a zero, the one of line 97 when `dblA(i)` is
NaN (`dblA(i) == dblA(i)` is false only for NaN). -/
def kernelRow_f64 (asserts : Bool) (l : Mat F64) (i : Nat) : Except AssertFailure F64 :=
  let v := kernelValue_f64 l i
  if asserts && !(F64.sub (l.coeff i 2) (F64.sub (l.coeff i 0) (l.coeff i 1))).toBool then
    .error .kahan
  else if asserts && v.isNaN then
    .error .producedNaN
  else
    .ok v

/-- The edge-length kernel `doublearea(ul,dblA)` (lines 63-99) in `double` arithmetic. -/
def doublearea_l_f64 (asserts : Bool) (ul : Mat F64) : Except AssertFailure (List F64) :=
  if asserts && decide (ul.cols ≠ 3) then .error .notTriangles
  else forRows (kernelRow_f64 asserts (sort_f64 ul)) (List.range ul.rows)

/-- The dispatcher `doublearea(V,F,dblA)` (lines 14-61) in `double` arithmetic. -/
def doublearea_f64 (asserts : Bool) (V : Mat F64) (F : Mat Nat) :
    Except AssertFailure (List F64) :=
  if asserts && decide (F.cols ≠ 3) then .error .notTriangles
  else
    match V.cols with
    | 3 => .ok (doublearea3_f64 V F)
    | 2 => .ok (doublearea2_f64 V F)
    | _ => doublearea_l_f64 asserts (edge_lengths_f64 V F)

/-- The commented-out naive formula of lines 84-88 in `double` arithmetic, with the
semiperimeter `s = l.rowwise().sum()*0.5` of line 78. -/
def heronDoubleArea_f64 (l0 l1 l2 : F64) : F64 :=
  let s := F64.mul (F64.add (F64.add l0 l1) l2) (F64.scaled 1 (-1))
  F64.mul (F64.ofInt 2) (F64.sqrt
    (F64.mul (F64.mul (F64.mul s (F64.sub s l0)) (F64.sub s l1)) (F64.sub s l2)))

/-- The exact value of a finite `double`, as a rational number (0 for NaN and the
infinities). -/
def F64.toRat : F64 → ℚ
  | .fin s m e => (if s then -1 else 1) * (m : ℚ) * 2 ^ e
  | _ => 0

/-- The finite values. -/
def F64.isFinite : F64 → Bool
  | .fin _ _ _ => true
  | _ => false

/-- The 2D vertex table extended by a third coordinate equal to zero, for `double`
values. -/
def extendZero_f64 (V : Mat F64) : Mat F64 :=
  ⟨V.rows, 3, fun i k => if k < 2 then V.coeff i k else F64.zero⟩

end Double

/-! ## Auxiliary lemmas -/

section Lemmas

variable {K : Type} [LinearOrderedField K]

theorem zipWith_map_same {ι α β γ : Type} (g : α → β → γ) (a : ι → α) (b : ι → β)
    (l : List ι) :
    List.zipWith g (l.map a) (l.map b) = l.map (fun i => g (a i) (b i)) := by
  induction l with
  | nil => rfl
  | cons i l ih => simp [ih]

theorem replicate_eq_map_range {α : Type} (n : Nat) (x : α) :
    List.replicate n x = (List.range n).map (fun _ => x) := by
  apply List.ext_getElem <;> simp

theorem doublearea2_eq (V : Mat K) (F : Mat Nat) :
    doublearea2 V F = (List.range F.rows).map (fun f => projArea V F f 0 1) := by
  simp [doublearea2, projArea, cross2, corner]

theorem doublearea2_colPair (V : Mat K) (F : Mat Nat) (d : Nat) :
    doublearea2 (colPair V d) F
      = (List.range F.rows).map (fun f => projArea V F f d ((d + 1) % 3)) := by
  simp [doublearea2, projArea, cross2, corner, colPair]

theorem doublearea3_eq (sqrt : K → K) (V : Mat K) (F : Mat Nat) :
    doublearea3 sqrt V F = (List.range F.rows).map (fun f =>
      fsqrt sqrt (0 + projArea V F f 0 1 * projArea V F f 0 1
        + projArea V F f 1 2 * projArea V F f 1 2
        + projArea V F f 2 0 * projArea V F f 2 0)) := by
  have h3 : List.range 3 = [0, 1, 2] := rfl
  simp only [doublearea3, h3, List.foldl_cons, List.foldl_nil, doublearea2_colPair,
    replicate_eq_map_range, zipWith_map_same, List.map_map]
  rfl

theorem getElem?_map_range {α : Type} (g : Nat → α) (n f : Nat) (hf : f < n) :
    ((List.range n).map g)[f]? = some (g f) := by
  simp [hf]

theorem forRows_of_ok {ε β : Type} (body : Nat → Except ε β) (g : Nat → β)
    (is : List Nat) (h : ∀ i ∈ is, body i = .ok (g i)) :
    forRows body is = .ok (is.map g) := by
  induction is with
  | nil => rfl
  | cons i is ih =>
    have hi := h i (List.mem_cons_self i is)
    have ht := ih (fun j hj => h j (List.mem_cons_of_mem i hj))
    simp [forRows, hi, ht]

theorem forRows_ok_inv {ε β : Type} (body : Nat → Except ε β) (is : List Nat)
    (out : List β) (h : forRows body is = .ok out) :
    out.length = is.length ∧ ∀ k i : Nat, is[k]? = some i → ∃ v, out[k]? = some v ∧ body i = .ok v := by
  induction is generalizing out with
  | nil =>
    simp only [forRows, Except.ok.injEq] at h
    subst h
    simp
  | cons j is ih =>
    rw [forRows] at h
    cases hb : body j with
    | error e => rw [hb] at h; cases h
    | ok v =>
      rw [hb] at h
      cases ht : forRows body is with
      | error e => rw [ht] at h; cases h
      | ok vs =>
        rw [ht] at h
        simp only [Except.ok.injEq] at h
        subst h
        obtain ⟨hl, hk⟩ := ih vs ht
        refine ⟨by simp [hl], ?_⟩
        intro k i hki
        cases k with
        | zero =>
          simp only [List.getElem?_cons_zero, Option.some.injEq] at hki
          subst hki
          exact ⟨v, by simp, hb⟩
        | succ k =>
          simp only [List.getElem?_cons_succ] at hki
          simpa using hk k i hki

theorem forRows_error_inv {ε β : Type} (body : Nat → Except ε β) (is : List Nat)
    (e : ε) (h : forRows body is = .error e) : ∃ i ∈ is, body i = .error e := by
  induction is with
  | nil => cases h
  | cons j is ih =>
    rw [forRows] at h
    cases hb : body j with
    | error e2 =>
      rw [hb] at h
      simp only [Except.error.injEq] at h
      subst h
      exact ⟨j, List.mem_cons_self j is, hb⟩
    | ok v =>
      rw [hb] at h
      cases ht : forRows body is with
      | error e2 =>
        rw [ht] at h
        simp only [Except.error.injEq] at h
        subst h
        obtain ⟨i, hi, hbi⟩ := ih ht
        exact ⟨i, List.mem_cons_of_mem j hi, hbi⟩
      | ok vs => rw [ht] at h; cases h

theorem forRows_error_of_mem {ε β : Type} (body : Nat → Except ε β) (is : List Nat)
    (i : Nat) (hi : i ∈ is) (e : ε) (hb : body i = .error e) :
    ∃ e2, forRows body is = .error e2 := by
  cases h : forRows body is with
  | error e2 => exact ⟨e2, rfl⟩
  | ok out =>
    obtain ⟨k, hk⟩ := List.getElem?_of_mem hi
    obtain ⟨v, _, hv⟩ := (forRows_ok_inv body is out h).2 k i hk
    rw [hb] at hv
    cases hv

/-- Rows of a table of three columns. -/
theorem row_of_cols3 {α : Type} (M : Mat α) (h : M.cols = 3) (i : Nat) :
    M.row i = [M.coeff i 0, M.coeff i 1, M.coeff i 2] := by
  simp [Mat.row, h, List.range_succ]

/-- The sorted row of a table of three columns: a rearrangement of the row, in
descending order. -/
theorem sort_row3 (ul : Mat K) (h : ul.cols = 3) (i : Nat) :
    [(sort ul).coeff i 0, (sort ul).coeff i 1, (sort ul).coeff i 2].Perm
        [ul.coeff i 0, ul.coeff i 1, ul.coeff i 2]
      ∧ (sort ul).coeff i 1 ≤ (sort ul).coeff i 0
      ∧ (sort ul).coeff i 2 ≤ (sort ul).coeff i 1 := by
  obtain ⟨s, hdef⟩ : ∃ s, s = (ul.row i).insertionSort (fun x y : K => y ≤ x) :=
    ⟨_, rfl⟩
  have hp : s.Perm [ul.coeff i 0, ul.coeff i 1, ul.coeff i 2] := by
    rw [hdef, ← row_of_cols3 ul h i]
    exact List.perm_insertionSort _ _
  have hs : s.Sorted (fun x y : K => y ≤ x) := by
    rw [hdef]
    exact List.sorted_insertionSort _ _
  have hl : s.length = 3 := by simpa using hp.length_eq
  have hco : ∀ k, (sort ul).coeff i k = s.getD k 0 := fun k => by rw [hdef]; rfl
  rw [hco 0, hco 1, hco 2]
  clear hdef hco
  rcases s with _ | ⟨a, _ | ⟨b, _ | ⟨c, _ | ⟨d, t⟩⟩⟩⟩
  · simp at hl
  · simp at hl
  · simp at hl
  · simp only [List.getD_cons_zero, List.getD_cons_succ]
    simp only [List.Sorted, List.pairwise_cons] at hs
    exact ⟨hp, hs.1 b (by simp), hs.2.1 c (by simp)⟩
  · simp at hl

theorem kahanArg_eq_powers (a b c : K) :
    kahanArg a b c
      = (a ^ 2 + b ^ 2 + c ^ 2) ^ 2 - 2 * (a ^ 4 + b ^ 4 + c ^ 4) := by
  simp only [kahanArg]
  ring

theorem kahanArg_perm (a b c x y z : K) (h : [a, b, c].Perm [x, y, z]) :
    kahanArg a b c = kahanArg x y z := by
  have h2 := (h.map (fun t => t ^ 2)).sum_eq
  have h4 := (h.map (fun t => t ^ 4)).sum_eq
  simp only [List.map_cons, List.map_nil, List.sum_cons, List.sum_nil, add_zero] at h2 h4
  rw [kahanArg_eq_powers, kahanArg_eq_powers]
  have e2 : a ^ 2 + b ^ 2 + c ^ 2 = x ^ 2 + y ^ 2 + z ^ 2 := by linarith
  have e4 : a ^ 4 + b ^ 4 + c ^ 4 = x ^ 4 + y ^ 4 + z ^ 4 := by linarith
  rw [e2, e4]

/-- The radicand of a row is the radicand of its sorted row. -/
theorem kahanArg_sort (ul : Mat K) (h : ul.cols = 3) (i : Nat) :
    kahanArg ((sort ul).coeff i 0) ((sort ul).coeff i 1) ((sort ul).coeff i 2)
      = kahanArg (ul.coeff i 0) (ul.coeff i 1) (ul.coeff i 2) :=
  kahanArg_perm _ _ _ _ _ _ (sort_row3 ul h i).1

/-- Sign of the radicand of a descending triple of non-negative lengths. -/
theorem kahanArg_nonneg_iff (a b c : K) (hc : 0 ≤ c) (hbc : c ≤ b) (hab : b ≤ a) :
    0 ≤ kahanArg a b c ↔ a ≤ b + c := by
  constructor
  · intro h
    by_contra hn
    push_neg at hn
    have h1 : 0 < a + (b + c) := by linarith
    have h2 : c - (a - b) < 0 := by linarith
    have h3 : 0 < c + (a - b) := by linarith
    have h4 : 0 < a + (b - c) := by linarith
    have : kahanArg a b c < 0 := by
      simp only [kahanArg]
      exact mul_neg_of_neg_of_pos
        (mul_neg_of_neg_of_pos (mul_neg_of_pos_of_neg h1 h2) h3) h4
    linarith
  · intro h
    simp only [kahanArg]
    have h1 : 0 ≤ a + (b + c) := by linarith
    have h2 : 0 ≤ c - (a - b) := by linarith
    have h3 : 0 ≤ c + (a - b) := by linarith
    have h4 : 0 ≤ a + (b - c) := by linarith
    exact mul_nonneg (mul_nonneg (mul_nonneg h1 h2) h3) h4

/-- Without assertions the kernel returns one value per row. -/
theorem doublearea_l_release (sqrt : K → K) (ul : Mat K) :
    doublearea_l sqrt false ul
      = .ok ((List.range ul.rows).map (kernelValue sqrt (sort ul))) := by
  simp only [doublearea_l, Bool.false_and, Bool.false_eq_true, if_false]
  exact forRows_of_ok _ _ _ (fun i _ => by simp [kernelRow])

/-- With assertions a completed call of the kernel returns the same values. -/
theorem doublearea_l_debug_ok (sqrt : K → K) (ul : Mat K) (out : List (Option K))
    (h : doublearea_l sqrt true ul = .ok out) :
    out = (List.range ul.rows).map (kernelValue sqrt (sort ul)) := by
  simp only [doublearea_l, Bool.true_and] at h
  split at h
  · cases h
  · obtain ⟨hl, hk⟩ := forRows_ok_inv _ _ _ h
    apply List.ext_getElem?
    intro k
    by_cases hklt : k < ul.rows
    · obtain ⟨v, hv, hb⟩ := hk k k (by simp [hklt])
      rw [hv, getElem?_map_range _ _ _ hklt]
      simp only [kernelRow, Bool.true_and] at hb
      split at hb
      · cases hb
      · split at hb
        · cases hb
        · simp only [Except.ok.injEq] at hb
          rw [hb]
    · have h1 : out.length ≤ k := by
        rw [hl, List.length_range]
        omega
      have h2 : ((List.range ul.rows).map (kernelValue sqrt (sort ul))).length ≤ k := by
        rw [List.length_map, List.length_range]
        omega
      rw [List.getElem?_eq_none h1, List.getElem?_eq_none h2]

theorem kernelValue_sort (sqrt : K → K) (ul : Mat K) (h : ul.cols = 3) (i : Nat) :
    kernelValue sqrt (sort ul) i
      = (fsqrt sqrt (kahanArg (ul.coeff i 0) (ul.coeff i 1) (ul.coeff i 2))).map
          (fun r => 2 * (1 / 4) * r) := by
  simp only [kernelValue, kahanArg_sort ul h i]

theorem kahanArg_nonneg_of_triangle (x y z : K) (t0 : x ≤ y + z) (t1 : y ≤ x + z)
    (t2 : z ≤ x + y) : 0 ≤ kahanArg x y z := by
  have e : kahanArg x y z = (x + y + z) * (y + z - x) * (x + z - y) * (x + y - z) := by
    simp only [kahanArg]
    ring
  rw [e]
  have h1 : 0 ≤ x + y + z := by linarith
  have h2 : 0 ≤ y + z - x := by linarith
  have h3 : 0 ≤ x + z - y := by linarith
  have h4 : 0 ≤ x + y - z := by linarith
  exact mul_nonneg (mul_nonneg (mul_nonneg h1 h2) h3) h4

theorem kahanArg_neg_of_exceeds (x y z : K) (hy : 0 ≤ y) (hz : 0 ≤ z) (h : y + z < x) :
    kahanArg x y z < 0 := by
  have e : kahanArg x y z = (x + y + z) * (y + z - x) * (x + z - y) * (x + y - z) := by
    simp only [kahanArg]
    ring
  rw [e]
  have h1 : 0 < x + y + z := by linarith
  have h2 : y + z - x < 0 := by linarith
  have h3 : 0 < x + z - y := by linarith
  have h4 : 0 < x + y - z := by linarith
  exact mul_neg_of_neg_of_pos (mul_neg_of_neg_of_pos (mul_neg_of_pos_of_neg h1 h2) h3) h4

/-- A row of non-negative lengths one of which exceeds the sum of the other two has a
negative radicand. -/
theorem kahanArg_neg_of_violation (x y z : K) (hx : 0 ≤ x) (hy : 0 ≤ y) (hz : 0 ≤ z)
    (h : y + z < x ∨ x + z < y ∨ x + y < z) : kahanArg x y z < 0 := by
  rcases h with h | h | h
  · exact kahanArg_neg_of_exceeds x y z hy hz h
  · rw [kahanArg_perm x y z y x z (List.Perm.swap y x [z])]
    exact kahanArg_neg_of_exceeds y x z hx hz h
  · have hp : [x, y, z].Perm [z, x, y] := by
      have hc : ([x, y] ++ [z]).Perm ([z] ++ [x, y]) := List.perm_append_comm
      simpa using hc
    rw [kahanArg_perm x y z z x y hp]
    exact kahanArg_neg_of_exceeds z x y hx hy h

/-- The entries of the sorted row of non-negative lengths are non-negative. -/
theorem sort_row3_nonneg (ul : Mat K) (h : ul.cols = 3) (i : Nat)
    (h0 : 0 ≤ ul.coeff i 0) (h1 : 0 ≤ ul.coeff i 1) (h2 : 0 ≤ ul.coeff i 2) :
    0 ≤ (sort ul).coeff i 2 := by
  have hp := (sort_row3 ul h i).1
  have hm : (sort ul).coeff i 2 ∈ [ul.coeff i 0, ul.coeff i 1, ul.coeff i 2] :=
    hp.subset (by simp)
  simp only [List.mem_cons, List.mem_singleton, List.not_mem_nil, or_false] at hm
  rcases hm with e | e | e <;> rw [e] <;> assumption

theorem kahanArg_eq_heron (x y z : K) :
    kahanArg x y z
      = 16 * ((x + y + z) * (1 / 2) * ((x + y + z) * (1 / 2) - x)
          * ((x + y + z) * (1 / 2) - y) * ((x + y + z) * (1 / 2) - z)) := by
  simp only [kahanArg]
  ring

end Lemmas

/-! ## The 2D and 3D paths -/

section Paths

variable {K : Type} [LinearOrderedField K]

/-- C1, amended. 2D path in exact arithmetic (an ordered field, input and output of the
same scalar type): for a vertex table with exactly 2 columns and a triangle table with 3
columns of valid indices, the call returns one value per triangle, and entry `f` is the
2D cross product `(v0 - v2) × (v1 - v2) = (x0-x2)*(y1-y2) - (y0-y2)*(x1-x2)`, returned
as it is (neither halved nor doubled), which equals the shoelace sum
`x0*y1 - x1*y0 + x1*y2 - x2*y1 + x2*y0 - x0*y2`. -/
theorem doublearea_dim2_entry (sqrt : K → K) (asserts : Bool) (V : Mat K) (F : Mat Nat)
    (hV : V.cols = 2) (hF : F.cols = 3) (f : Nat) (hf : f < F.rows)
    (_hidx : ∀ j, j < 3 → F.coeff f j < V.rows) :
    ∃ out, doublearea sqrt asserts V F = .ok out ∧ out.length = F.rows ∧
      out[f]? = some (some
        ((corner V F f 0 0 - corner V F f 2 0) * (corner V F f 1 1 - corner V F f 2 1)
          - (corner V F f 0 1 - corner V F f 2 1) * (corner V F f 1 0 - corner V F f 2 0)))
      ∧ (corner V F f 0 0 - corner V F f 2 0) * (corner V F f 1 1 - corner V F f 2 1)
          - (corner V F f 0 1 - corner V F f 2 1) * (corner V F f 1 0 - corner V F f 2 0)
        = corner V F f 0 0 * corner V F f 1 1 - corner V F f 1 0 * corner V F f 0 1
          + corner V F f 1 0 * corner V F f 2 1 - corner V F f 2 0 * corner V F f 1 1
          + corner V F f 2 0 * corner V F f 0 1 - corner V F f 0 0 * corner V F f 2 1 := by
  refine ⟨(doublearea2 V F).map some, ?_, ?_, ?_, by ring⟩
  · simp [doublearea, hV, hF]
  · simp [doublearea2]
  · simp [doublearea2, corner, hf]

/-- Witness of C1, amended: the triangle `(0,0), (1,0), (0,1)`. -/
theorem doublearea_dim2_entry_witness :
    ∃ out, doublearea (fun x : ℚ => x) true
        (Mat.ofRows 0 2 [[0, 0], [1, 0], [0, 1]]) (Mat.ofRows 0 3 [[0, 1, 2]]) = .ok out
      ∧ out[0]? = some (some 1) := by
  obtain ⟨out, h1, _, h3, _⟩ := doublearea_dim2_entry (fun x : ℚ => x) true
    (Mat.ofRows 0 2 [[0, 0], [1, 0], [0, 1]]) (Mat.ofRows 0 3 [[0, 1, 2]])
    rfl rfl 0 (by decide) (by decide)
  refine ⟨out, h1, ?_⟩
  rw [h3]
  simp [corner, Mat.ofRows]

/-- C2, amended. 3D path in exact real arithmetic: for a vertex table with exactly 3
columns and a valid triangle table, entry `f` is `sqrt(Axy^2 + Ayz^2 + Azx^2)`, with `Axy`, `Ayz`, `Azx` the 2D signed double
areas of the triangle projected onto the coordinate pairs (x,y), (y,z), (z,x), and this
is the Euclidean norm of the 3D cross product `(v0 - v2) × (v1 - v2)`. -/
theorem doublearea_dim3_entry (asserts : Bool) (V : Mat ℝ) (F : Mat Nat)
    (hV : V.cols = 3) (hF : F.cols = 3) (f : Nat) (hf : f < F.rows)
    (_hidx : ∀ j, j < 3 → F.coeff f j < V.rows) :
    ∃ out, doublearea Real.sqrt asserts V F = .ok out ∧ out.length = F.rows ∧
      out[f]? = some (some (Real.sqrt
        (projArea V F f 0 1 ^ 2 + projArea V F f 1 2 ^ 2 + projArea V F f 2 0 ^ 2)))
      ∧ Real.sqrt (projArea V F f 0 1 ^ 2 + projArea V F f 1 2 ^ 2 + projArea V F f 2 0 ^ 2)
        = norm3 Real.sqrt (cross3 (fun k => corner V F f 0 k - corner V F f 2 k)
            (fun k => corner V F f 1 k - corner V F f 2 k)) := by
  refine ⟨doublearea3 Real.sqrt V F, ?_, ?_, ?_, ?_⟩
  · simp [doublearea, hV, hF]
  · simp [doublearea3_eq]
  · rw [doublearea3_eq, getElem?_map_range _ _ _ hf]
    have h : ¬ (0 + projArea V F f 0 1 * projArea V F f 0 1
        + projArea V F f 1 2 * projArea V F f 1 2
        + projArea V F f 2 0 * projArea V F f 2 0 < 0) := by
      have := mul_self_nonneg (projArea V F f 0 1)
      have := mul_self_nonneg (projArea V F f 1 2)
      have := mul_self_nonneg (projArea V F f 2 0)
      linarith
    simp only [fsqrt, if_neg h]
    congr 3
    ring
  · simp only [norm3, cross3, projArea, cross2]
    congr 1
    ring

/-- Witness of C2, amended: the triangle `(0,0,0), (1,0,0), (0,1,0)`. -/
theorem doublearea_dim3_entry_witness :
    ∃ out, doublearea Real.sqrt true
        (Mat.ofRows 0 3 [[0, 0, 0], [1, 0, 0], [0, 1, 0]]) (Mat.ofRows 0 3 [[0, 1, 2]])
          = .ok out
      ∧ out[0]? = some (some 1) := by
  obtain ⟨out, h1, _, h3, _⟩ := doublearea_dim3_entry true
    (Mat.ofRows 0 3 [[0, 0, 0], [1, 0, 0], [0, 1, 0]]) (Mat.ofRows 0 3 [[0, 1, 2]])
    rfl rfl 0 (by decide) (by decide)
  refine ⟨out, h1, ?_⟩
  rw [h3]
  simp [projArea, cross2, corner, Mat.ofRows]

/-- C9, amended. 2D winding sign in exact arithmetic (an ordered field): exchanging two
corners of a 2D triangle negates its value exactly; a counter-clockwise triangle gets a positive value; collinear corners
(`v2 = v0 + t*(v1 - v0)` for some `t`, or `v0 = v1`) give exactly 0. -/
theorem doublearea_dim2_winding (sqrt : K → K) (asserts : Bool) (V : Mat K) (F : Mat Nat)
    (hV : V.cols = 2) (hF : F.cols = 3) (f : Nat) (hf : f < F.rows) :
    ∃ out a, doublearea sqrt asserts V F = .ok out ∧ out[f]? = some (some a) ∧
      (∀ i j, i < 3 → j < 3 → i ≠ j →
        ∃ out2, doublearea sqrt asserts V (swapCorners F i j) = .ok out2 ∧
          out2[f]? = some (some (-a))) ∧
      (ccw V F f → 0 < a) ∧
      (collinear V F f → a = 0) := by
  refine ⟨(doublearea2 V F).map some, projArea V F f 0 1, ?_, ?_, ?_, ?_, ?_⟩
  · simp [doublearea, hV, hF]
  · simp [doublearea2_eq, hf]
  · intro i j hi hj hij
    refine ⟨(doublearea2 V (swapCorners F i j)).map some, ?_, ?_⟩
    · simp [doublearea, hV, hF, swapCorners]
    · have hf2 : f < (swapCorners F i j).rows := hf
      simp only [doublearea2_eq, List.map_map, getElem?_map_range _ _ _ hf2,
        Function.comp]
      congr 2
      interval_cases i <;> interval_cases j <;>
        first
        | exact absurd rfl hij
        | (simp [projArea, cross2, corner, swapCorners]; ring)
  · intro h
    have e : projArea V F f 0 1
        = cross2 (corner V F f 1 0) (corner V F f 1 1) (corner V F f 2 0) (corner V F f 2 1)
            (corner V F f 0 0) (corner V F f 0 1) := by
      simp only [projArea, cross2]
      ring
    rw [e]
    exact h
  · rintro (⟨t, ht⟩ | h)
    · have h0 := ht 0 (by decide)
      have h1 := ht 1 (by decide)
      simp only [projArea, cross2, h0, h1]
      ring
    · have h0 := h 0 (by decide)
      have h1 := h 1 (by decide)
      simp only [projArea, cross2, h0, h1]
      ring

/-- Witness of C9, amended: the counter-clockwise triangle `(0,0), (1,0), (0,1)` has value 1. -/
theorem doublearea_dim2_winding_witness :
    ∃ out a, doublearea (fun x : ℚ => x) true
        (Mat.ofRows 0 2 [[0, 0], [1, 0], [0, 1]]) (Mat.ofRows 0 3 [[0, 1, 2]]) = .ok out
      ∧ out[0]? = some (some a) ∧ 0 < a := by
  obtain ⟨out, a, h1, h2, _, h4, _⟩ := doublearea_dim2_winding (fun x : ℚ => x) true
    (Mat.ofRows 0 2 [[0, 0], [1, 0], [0, 1]]) (Mat.ofRows 0 3 [[0, 1, 2]])
    rfl rfl 0 (by decide)
  refine ⟨out, a, h1, h2, h4 ?_⟩
  simp [ccw, cross2, corner, Mat.ofRows]

end Paths

/-! ## The edge-length kernel -/

section Kernel

variable {K : Type} [LinearOrderedField K]

/-- The edge-length kernel formula in exact arithmetic: for a table of three columns,
entry `i` of `doublearea(l)` is `0.5 * sqrt((a+(b+c)) * (c-(a-b)) * (c+(a-b)) * (a+(b-c)))`
(NaN at a negative radicand), where `(a, b, c)` is row `i` sorted into descending
order: `a ≥ b ≥ c` and `(a, b, c)` is a rearrangement of the row.  A call that completes
with assertions enabled returns the same entry. -/
theorem doublearea_l_formula (sqrt : K → K) (ul : Mat K) (h : ul.cols = 3) (i : Nat)
    (hi : i < ul.rows) :
    ∃ a b c : K, [a, b, c].Perm [ul.coeff i 0, ul.coeff i 1, ul.coeff i 2] ∧
      b ≤ a ∧ c ≤ b ∧
      ∃ out, doublearea_l sqrt false ul = .ok out ∧ out.length = ul.rows ∧
        out[i]? = some ((fsqrt sqrt
            ((a + (b + c)) * (c - (a - b)) * (c + (a - b)) * (a + (b - c)))).map
              (fun r => 1 / 2 * r)) ∧
        ∀ out2, doublearea_l sqrt true ul = .ok out2 → out2[i]? = out[i]? := by
  obtain ⟨hp, hab, hbc⟩ := sort_row3 ul h i
  refine ⟨_, _, _, hp, hab, hbc, _, doublearea_l_release sqrt ul, by simp, ?_, ?_⟩
  · rw [getElem?_map_range _ _ _ hi]
    simp only [kernelValue, kahanArg]
    congr 2
    funext r
    ring
  · intro out2 h2
    rw [doublearea_l_debug_ok sqrt ul out2 h2]

/-- The kernel formula in exact arithmetic on the row `(3, 4, 5)`. -/
theorem doublearea_l_formula_witness :
    (Mat.ofRows (0 : ℝ) 3 [[3, 4, 5]]).cols = 3 ∧ 0 < (Mat.ofRows (0 : ℝ) 3 [[3, 4, 5]]).rows ∧
    ∃ a b c : ℝ, [a, b, c].Perm [3, 4, 5] ∧ b ≤ a ∧ c ≤ b ∧
      ∃ out, doublearea_l Real.sqrt false (Mat.ofRows 0 3 [[3, 4, 5]]) = .ok out ∧
        out[0]? = some ((fsqrt Real.sqrt
            ((a + (b + c)) * (c - (a - b)) * (c + (a - b)) * (a + (b - c)))).map
              (fun r => 1 / 2 * r)) := by
  refine ⟨rfl, by decide, ?_⟩
  obtain ⟨a, b, c, hp, hab, hbc, out, h1, _, h3, _⟩ :=
    doublearea_l_formula Real.sqrt (Mat.ofRows 0 3 [[3, 4, 5]]) rfl 0 (by decide)
  exact ⟨a, b, c, by simpa [Mat.ofRows] using hp, hab, hbc, out, h1, h3⟩

/-- C4, amended. The kernel gives double the area, in exact real arithmetic: for lengths
satisfying the triangle inequality, the entry computed by Kahan's formula equals `2 * sqrt(s*(s-l0)*(s-l1)*(s-l2))`
with `s = (l0+l1+l2)/2`, twice the area of the naive Heron formula kept in a comment. -/
theorem doublearea_l_eq_heron (ul : Mat ℝ) (h : ul.cols = 3) (i : Nat) (hi : i < ul.rows)
    (t0 : ul.coeff i 0 ≤ ul.coeff i 1 + ul.coeff i 2)
    (t1 : ul.coeff i 1 ≤ ul.coeff i 0 + ul.coeff i 2)
    (t2 : ul.coeff i 2 ≤ ul.coeff i 0 + ul.coeff i 1) :
    ∃ out, doublearea_l Real.sqrt false ul = .ok out ∧
      out[i]? = some (some
        (heronDoubleArea Real.sqrt (ul.coeff i 0) (ul.coeff i 1) (ul.coeff i 2))) ∧
      heronDoubleArea Real.sqrt (ul.coeff i 0) (ul.coeff i 1) (ul.coeff i 2)
        = 2 * Real.sqrt ((ul.coeff i 0 + ul.coeff i 1 + ul.coeff i 2) / 2
            * ((ul.coeff i 0 + ul.coeff i 1 + ul.coeff i 2) / 2 - ul.coeff i 0)
            * ((ul.coeff i 0 + ul.coeff i 1 + ul.coeff i 2) / 2 - ul.coeff i 1)
            * ((ul.coeff i 0 + ul.coeff i 1 + ul.coeff i 2) / 2 - ul.coeff i 2)) ∧
      ∀ out2, doublearea_l Real.sqrt true ul = .ok out2 → out2[i]? = out[i]? := by
  refine ⟨_, doublearea_l_release Real.sqrt ul, ?_, ?_, ?_⟩
  · rw [getElem?_map_range _ _ _ hi, kernelValue_sort Real.sqrt ul h i]
    have hn := kahanArg_nonneg_of_triangle _ _ _ t0 t1 t2
    simp only [fsqrt, if_neg (not_lt.mpr hn), Option.map_some', heronDoubleArea]
    rw [kahanArg_eq_heron, Real.sqrt_mul (by norm_num : (0 : ℝ) ≤ 16)]
    have h16 : Real.sqrt 16 = 4 := by
      rw [show (16 : ℝ) = 4 ^ 2 by norm_num]
      exact Real.sqrt_sq (by norm_num)
    rw [h16]
    congr 2
    ring
  · simp only [heronDoubleArea]
    congr 3 <;> ring
  · intro out2 h2
    rw [doublearea_l_debug_ok Real.sqrt ul out2 h2]

/-- Witness of C4, amended: the row `(3, 4, 5)`. -/
theorem doublearea_l_eq_heron_witness :
    ∃ out, doublearea_l Real.sqrt false (Mat.ofRows 0 3 [[3, 4, 5]]) = .ok out ∧
      out[0]? = some (some (heronDoubleArea Real.sqrt 3 4 5)) := by
  obtain ⟨out, h1, h2, _⟩ :=
    doublearea_l_eq_heron (Mat.ofRows 0 3 [[3, 4, 5]]) rfl 0 (by decide)
      (by simp [Mat.ofRows]; norm_num) (by simp [Mat.ofRows]; norm_num)
      (by simp [Mat.ofRows]; norm_num)
  exact ⟨out, h1, by simpa [Mat.ofRows] using h2⟩

/-- The row `(1, 1, 5)` in exact arithmetic: without assertions it is not reported; its
result is NaN. -/
theorem doublearea_l_violation_yields_nan :
    doublearea_l Real.sqrt false (Mat.ofRows 0 3 [[1, 1, 5]]) = .ok [none] := by
  rw [doublearea_l_release]
  have hr : (Mat.ofRows (0 : ℝ) 3 [[1, 1, 5]]).rows = 1 := rfl
  have h1 : List.range 1 = [0] := rfl
  rw [hr, h1, List.map_cons, List.map_nil, kernelValue_sort _ _ rfl]
  have hneg : kahanArg (1 : ℝ) 1 5 < 0 := by
    simp only [kahanArg]
    norm_num
  simp [Mat.ofRows, fsqrt, hneg]

/-- C5, amended. In exact arithmetic (an ordered field), for a row of non-negative
lengths one of which exceeds the sum of the other two: with assertions enabled the row fails an assertion and the call aborts; with
assertions disabled nothing is reported and the row's result is NaN. -/
theorem doublearea_l_violation (sqrt : K → K) (ul : Mat K) (h : ul.cols = 3) (i : Nat)
    (hi : i < ul.rows)
    (h0 : 0 ≤ ul.coeff i 0) (h1 : 0 ≤ ul.coeff i 1) (h2 : 0 ≤ ul.coeff i 2)
    (hv : ul.coeff i 1 + ul.coeff i 2 < ul.coeff i 0
      ∨ ul.coeff i 0 + ul.coeff i 2 < ul.coeff i 1
      ∨ ul.coeff i 0 + ul.coeff i 1 < ul.coeff i 2) :
    (∃ out, doublearea_l sqrt false ul = .ok out ∧ out[i]? = some none) ∧
      (∃ e, kernelRow sqrt true (sort ul) i = .error e) ∧
      ∃ e, doublearea_l sqrt true ul = .error e := by
  have hneg := kahanArg_neg_of_violation _ _ _ h0 h1 h2 hv
  have hval : kernelValue sqrt (sort ul) i = none := by
    rw [kernelValue_sort sqrt ul h i]
    simp [fsqrt, hneg]
  have hrow : kernelRow sqrt true (sort ul) i = .error .producedNaN := by
    obtain ⟨_, hab, hbc⟩ := sort_row3 ul h i
    have hc := sort_row3_nonneg ul h i h0 h1 h2
    have hlt : ¬ (0 ≤ kahanArg ((sort ul).coeff i 0) ((sort ul).coeff i 1)
        ((sort ul).coeff i 2)) := by
      rw [kahanArg_sort ul h i]
      exact not_le.mpr hneg
    rw [kahanArg_nonneg_iff _ _ _ hc hbc hab] at hlt
    have hk : (sort ul).coeff i 2 - ((sort ul).coeff i 0 - (sort ul).coeff i 1) ≠ 0 := by
      intro h
      apply hlt
      linarith
    simp [kernelRow, hk, hval]
  refine ⟨⟨_, doublearea_l_release sqrt ul, ?_⟩, ⟨_, hrow⟩, ?_⟩
  · rw [getElem?_map_range _ _ _ hi, hval]
  · simp only [doublearea_l, h, Bool.true_and, ne_eq, not_true_eq_false, decide_False,
      Bool.false_eq_true, if_false]
    exact forRows_error_of_mem _ _ i (by simp [hi]) _ hrow

/-- Witness of C5, amended: the row `(1, 1, 5)`. -/
theorem doublearea_l_violation_witness :
    (∃ out, doublearea_l Real.sqrt false (Mat.ofRows 0 3 [[1, 1, 5]]) = .ok out
        ∧ out[0]? = some none) ∧
      (∃ e, kernelRow Real.sqrt true (sort (Mat.ofRows 0 3 [[1, 1, 5]])) 0 = .error e) ∧
      ∃ e, doublearea_l Real.sqrt true (Mat.ofRows 0 3 [[1, 1, 5]]) = .error e :=
  doublearea_l_violation Real.sqrt (Mat.ofRows 0 3 [[1, 1, 5]]) rfl 0 (by decide)
    (by simp [Mat.ofRows]) (by simp [Mat.ofRows]) (by simp [Mat.ofRows])
    (Or.inr (Or.inr (by simp [Mat.ofRows]; norm_num)))

/-- The sorted form of a one-row table whose row is already in descending order. -/
theorem sort_ofRows_desc (a b c : K) (hab : b ≤ a) (hbc : c ≤ b) (k : Nat) :
    (sort (Mat.ofRows 0 3 [[a, b, c]])).coeff 0 k = [a, b, c].getD k 0 := by
  have hac : c ≤ a := le_trans hbc hab
  simp [sort, Mat.row, Mat.ofRows, List.range_succ, List.insertionSort,
    List.orderedInsert, hab, hbc, hac]

/-- C6, the code at the failing inputs: with assertions enabled the rows `(1, 1, 0)` and
`(0, 0, 0)` abort with the Kahan assertion (the difference `c - (a - b)` is zero, which
converts to false), although the value computed for them is exactly 0, as the call
without assertions shows. -/
theorem doublearea_l_zero_edge_aborts :
    doublearea_l Real.sqrt true (Mat.ofRows 0 3 [[1, 1, 0]]) = .error .kahan ∧
      doublearea_l Real.sqrt true (Mat.ofRows 0 3 [[0, 0, 0]]) = .error .kahan ∧
      doublearea_l Real.sqrt false (Mat.ofRows 0 3 [[1, 1, 0]]) = .ok [some 0] ∧
      doublearea_l Real.sqrt false (Mat.ofRows 0 3 [[0, 0, 0]]) = .ok [some 0] := by
  have h1 : List.range 1 = [0] := rfl
  have s1 := sort_ofRows_desc (1 : ℝ) 1 0 le_rfl zero_le_one
  have s0 := sort_ofRows_desc (0 : ℝ) 0 0 le_rfl le_rfl
  have r1 : (Mat.ofRows (0 : ℝ) 3 [[1, 1, 0]]).rows = 1 := rfl
  have r0 : (Mat.ofRows (0 : ℝ) 3 [[0, 0, 0]]).rows = 1 := rfl
  have c1 : (Mat.ofRows (0 : ℝ) 3 [[1, 1, 0]]).cols = 3 := rfl
  have c0 : (Mat.ofRows (0 : ℝ) 3 [[0, 0, 0]]).cols = 3 := rfl
  refine ⟨?_, ?_, ?_, ?_⟩
  · simp [doublearea_l, c1, r1, h1, forRows, kernelRow, s1]
  · simp [doublearea_l, c0, r0, h1, forRows, kernelRow, s0]
  · rw [doublearea_l_release, r1, h1]
    simp [kernelValue, s1, kahanArg, fsqrt]
  · rw [doublearea_l_release, r0, h1]
    simp [kernelValue, s0, kahanArg, fsqrt]

/-- C7, amended. Radicand sign and the triangle inequality, in exact real arithmetic: for
a descending triple `a ≥ b ≥ c ≥ 0` the radicand is non-negative exactly when
`a ≤ b + c`; and for a row satisfying the triangle inequality the entry of the kernel is a non-negative real
number (not NaN) and the NaN assertion passes on that row. -/
theorem kahan_radicand_sign (a b c : ℝ) (hc : 0 ≤ c) (hbc : c ≤ b) (hab : b ≤ a) :
    (0 ≤ (a + (b + c)) * (c - (a - b)) * (c + (a - b)) * (a + (b - c)) ↔ a ≤ b + c) ∧
    ∀ (ul : Mat ℝ) (i : Nat), ul.cols = 3 → i < ul.rows →
      ul.coeff i 0 ≤ ul.coeff i 1 + ul.coeff i 2 →
      ul.coeff i 1 ≤ ul.coeff i 0 + ul.coeff i 2 →
      ul.coeff i 2 ≤ ul.coeff i 0 + ul.coeff i 1 →
      ∃ v : ℝ, 0 ≤ v ∧
        (∃ out, doublearea_l Real.sqrt false ul = .ok out ∧ out[i]? = some (some v)) ∧
        kernelRow Real.sqrt true (sort ul) i ≠ .error .producedNaN ∧
        ∀ out2, doublearea_l Real.sqrt true ul = .ok out2 → out2[i]? = some (some v) := by
  refine ⟨kahanArg_nonneg_iff a b c hc hbc hab, ?_⟩
  intro ul i h hi t0 t1 t2
  have hn := kahanArg_nonneg_of_triangle _ _ _ t0 t1 t2
  have hval : kernelValue Real.sqrt (sort ul) i
      = some (2 * (1 / 4) * Real.sqrt
          (kahanArg (ul.coeff i 0) (ul.coeff i 1) (ul.coeff i 2))) := by
    rw [kernelValue_sort Real.sqrt ul h i]
    simp only [fsqrt, if_neg (not_lt.mpr hn), Option.map_some']
  refine ⟨2 * (1 / 4) * Real.sqrt (kahanArg (ul.coeff i 0) (ul.coeff i 1) (ul.coeff i 2)),
    ?_, ⟨_, doublearea_l_release Real.sqrt ul, ?_⟩, ?_, ?_⟩
  · exact mul_nonneg (by norm_num) (Real.sqrt_nonneg _)
  · rw [getElem?_map_range _ _ _ hi, hval]
  · simp only [kernelRow, hval, Bool.true_and]
    split
    · simp
    · simp
  · intro out2 h2
    rw [doublearea_l_debug_ok Real.sqrt ul out2 h2, getElem?_map_range _ _ _ hi, hval]

/-- Witness of C7, amended: the needle `(1.0, 1.0, 1.9999999)`. -/
theorem kahan_radicand_sign_witness :
    (0 ≤ ((1.9999999 : ℝ) + (1 + 1)) * (1 - (1.9999999 - 1)) * (1 + (1.9999999 - 1))
        * (1.9999999 + (1 - 1)) ↔ (1.9999999 : ℝ) ≤ 1 + 1) ∧
    ∃ v : ℝ, 0 ≤ v ∧
      (∃ out, doublearea_l Real.sqrt false (Mat.ofRows 0 3 [[1, 1, 1.9999999]]) = .ok out ∧
        out[0]? = some (some v)) ∧
      kernelRow Real.sqrt true (sort (Mat.ofRows 0 3 [[1, 1, 1.9999999]])) 0
        ≠ .error .producedNaN := by
  obtain ⟨hiff, hrow⟩ :=
    kahan_radicand_sign 1.9999999 1 1 (by norm_num) (by norm_num) (by norm_num)
  obtain ⟨v, hv, hout, hnan, _⟩ := hrow (Mat.ofRows 0 3 [[1, 1, 1.9999999]]) 0 rfl
    (by decide) (by simp [Mat.ofRows]; norm_num) (by simp [Mat.ofRows]; norm_num)
    (by simp [Mat.ofRows]; norm_num)
  exact ⟨hiff, v, hv, hout, hnan⟩

end Kernel

/-! ## The kernel on measured edge lengths -/

section Measured

/-- The modelled distance is the Euclidean distance of the two rows. -/
theorem distance_eq_dist (V : Mat ℝ) (p q : Nat) :
    distance Real.sqrt V p q
      = dist ((WithLp.equiv 2 (Fin V.cols → ℝ)).symm (fun k => V.coeff p k))
          ((WithLp.equiv 2 (Fin V.cols → ℝ)).symm (fun k => V.coeff q k)) := by
  rw [distance, EuclideanSpace.dist_eq, Finset.sum_range]
  simp [Real.dist_eq, sq_abs]

theorem distance_comm (V : Mat ℝ) (p q : Nat) :
    distance Real.sqrt V p q = distance Real.sqrt V q p := by
  rw [distance_eq_dist, distance_eq_dist, dist_comm]

theorem distance_triangle (V : Mat ℝ) (p q r : Nat) :
    distance Real.sqrt V p q ≤ distance Real.sqrt V p r + distance Real.sqrt V r q := by
  rw [distance_eq_dist, distance_eq_dist, distance_eq_dist]
  exact dist_triangle _ _ _

/-- Measured edge lengths satisfy the triangle inequality. -/
theorem edge_lengths_triangle (V : Mat ℝ) (F : Mat Nat) (i : Nat) :
    (edge_lengths Real.sqrt V F).coeff i 0
        ≤ (edge_lengths Real.sqrt V F).coeff i 1 + (edge_lengths Real.sqrt V F).coeff i 2
    ∧ (edge_lengths Real.sqrt V F).coeff i 1
        ≤ (edge_lengths Real.sqrt V F).coeff i 0 + (edge_lengths Real.sqrt V F).coeff i 2
    ∧ (edge_lengths Real.sqrt V F).coeff i 2
        ≤ (edge_lengths Real.sqrt V F).coeff i 0 + (edge_lengths Real.sqrt V F).coeff i 1 := by
  simp only [edge_lengths, if_true, one_ne_zero, if_false, OfNat.ofNat_ne_zero,
    OfNat.ofNat_ne_one]
  refine ⟨?_, ?_, ?_⟩
  · have h := distance_triangle V (F.coeff i 1) (F.coeff i 2) (F.coeff i 0)
    rw [distance_comm V (F.coeff i 1) (F.coeff i 0)] at h
    linarith
  · have h := distance_triangle V (F.coeff i 0) (F.coeff i 2) (F.coeff i 1)
    linarith
  · have h := distance_triangle V (F.coeff i 0) (F.coeff i 1) (F.coeff i 2)
    rw [distance_comm V (F.coeff i 2) (F.coeff i 1)] at h
    linarith

/-- On a table of three columns whose rows all satisfy the triangle inequality, the call
with assertions either returns what the call without assertions returns or aborts with
the Kahan assertion. -/
theorem doublearea_l_of_triangle (ul : Mat ℝ) (h : ul.cols = 3)
    (ht : ∀ i, i < ul.rows → ul.coeff i 0 ≤ ul.coeff i 1 + ul.coeff i 2
      ∧ ul.coeff i 1 ≤ ul.coeff i 0 + ul.coeff i 2
      ∧ ul.coeff i 2 ≤ ul.coeff i 0 + ul.coeff i 1) :
    doublearea_l Real.sqrt true ul = doublearea_l Real.sqrt false ul
      ∨ doublearea_l Real.sqrt true ul = .error .kahan := by
  cases hres : doublearea_l Real.sqrt true ul with
  | ok out =>
    left
    rw [doublearea_l_debug_ok Real.sqrt ul out hres, doublearea_l_release]
  | error e =>
    right
    simp only [doublearea_l, h, Bool.true_and, ne_eq, not_true_eq_false, decide_False,
      Bool.false_eq_true, if_false] at hres
    obtain ⟨i, hi, hb⟩ := forRows_error_inv _ _ _ hres
    have hi2 : i < ul.rows := by simpa using hi
    obtain ⟨t0, t1, t2⟩ := ht i hi2
    have hn := kahanArg_nonneg_of_triangle _ _ _ t0 t1 t2
    have hval : (kernelValue Real.sqrt (sort ul) i).isNone = false := by
      rw [kernelValue_sort Real.sqrt ul h i]
      simp [fsqrt, not_lt.mpr hn]
    simp only [kernelRow, Bool.true_and, hval, Bool.false_eq_true, if_false] at hb
    split at hb
    · simp only [Except.error.injEq] at hb
      rw [← hb]
    · cases hb

/-- The value of the kernel on the measured edge lengths of a triangle in 3D. -/
theorem kernelValue_edge_lengths3 (V : Mat ℝ) (F : Mat Nat) (hV : V.cols = 3) (f : Nat) :
    kernelValue Real.sqrt (sort (edge_lengths Real.sqrt V F)) f
      = fsqrt Real.sqrt (0 + projArea V F f 0 1 * projArea V F f 0 1
        + projArea V F f 1 2 * projArea V F f 1 2
        + projArea V F f 2 0 * projArea V F f 2 0) := by
  rw [kernelValue_sort Real.sqrt _ rfl f, kahanArg_eq_powers]
  simp only [edge_lengths, if_true, one_ne_zero, if_false, OfNat.ofNat_ne_zero,
    OfNat.ofNat_ne_one, distance, hV]
  have hsq : ∀ d : ℝ, 0 ≤ d → Real.sqrt d ^ 2 = d := fun d hd => Real.sq_sqrt hd
  have hq : ∀ d : ℝ, 0 ≤ d → Real.sqrt d ^ 4 = d ^ 2 := fun d hd => by
    rw [show Real.sqrt d ^ 4 = (Real.sqrt d ^ 2) ^ 2 by ring, Real.sq_sqrt hd]
  have hs : ∀ g : Nat → ℝ, 0 ≤ ∑ k in Finset.range 3, g k ^ 2 := fun g =>
    Finset.sum_nonneg (fun k _ => sq_nonneg (g k))
  rw [hsq _ (hs _), hsq _ (hs _), hsq _ (hs _), hq _ (hs _), hq _ (hs _), hq _ (hs _)]
  have hX : 0 ≤ 0 + projArea V F f 0 1 * projArea V F f 0 1
      + projArea V F f 1 2 * projArea V F f 1 2
      + projArea V F f 2 0 * projArea V F f 2 0 := by
    have := mul_self_nonneg (projArea V F f 0 1)
    have := mul_self_nonneg (projArea V F f 1 2)
    have := mul_self_nonneg (projArea V F f 2 0)
    linarith
  have e : (∑ k in Finset.range 3, (V.coeff (F.coeff f 1) k - V.coeff (F.coeff f 2) k) ^ 2
        + ∑ k in Finset.range 3, (V.coeff (F.coeff f 0) k - V.coeff (F.coeff f 2) k) ^ 2
        + ∑ k in Finset.range 3, (V.coeff (F.coeff f 0) k - V.coeff (F.coeff f 1) k) ^ 2) ^ 2
      - 2 * ((∑ k in Finset.range 3,
            (V.coeff (F.coeff f 1) k - V.coeff (F.coeff f 2) k) ^ 2) ^ 2
        + (∑ k in Finset.range 3,
            (V.coeff (F.coeff f 0) k - V.coeff (F.coeff f 2) k) ^ 2) ^ 2
        + (∑ k in Finset.range 3,
            (V.coeff (F.coeff f 0) k - V.coeff (F.coeff f 1) k) ^ 2) ^ 2)
      = 2 ^ 2 * (0 + projArea V F f 0 1 * projArea V F f 0 1
        + projArea V F f 1 2 * projArea V F f 1 2
        + projArea V F f 2 0 * projArea V F f 2 0) := by
    simp only [Finset.sum_range_succ, Finset.sum_range_zero, projArea, cross2, corner]
    ring
  rw [e]
  have h4 : ¬ (2 ^ 2 * (0 + projArea V F f 0 1 * projArea V F f 0 1
      + projArea V F f 1 2 * projArea V F f 1 2
      + projArea V F f 2 0 * projArea V F f 2 0) < 0) := by
    apply not_lt.mpr
    positivity
  simp only [fsqrt, if_neg h4, if_neg (not_lt.mpr hX), Option.map_some']
  rw [Real.sqrt_mul (by norm_num : (0 : ℝ) ≤ 2 ^ 2), Real.sqrt_sq (by norm_num : (0 : ℝ) ≤ 2)]
  congr 1
  ring

/-- C8. Cross-validation of the two paths: for a table of 3D vertices, the kernel applied
to the measured edge lengths (`l0 = |v1-v2|`, `l1 = |v0-v2|`, `l2 = |v0-v1|`) returns
exactly what the 3D path returns, for every triangle.  With assertions enabled the
kernel returns the same unless it aborts with the Kahan assertion. -/
theorem doublearea_l_edge_lengths_eq_dim3 (asserts : Bool) (V : Mat ℝ) (F : Mat Nat)
    (hV : V.cols = 3) (hF : F.cols = 3) :
    (∀ f, (edge_lengths Real.sqrt V F).coeff f 0
          = Real.sqrt (∑ k in Finset.range 3, (corner V F f 1 k - corner V F f 2 k) ^ 2)
        ∧ (edge_lengths Real.sqrt V F).coeff f 1
          = Real.sqrt (∑ k in Finset.range 3, (corner V F f 0 k - corner V F f 2 k) ^ 2)
        ∧ (edge_lengths Real.sqrt V F).coeff f 2
          = Real.sqrt (∑ k in Finset.range 3, (corner V F f 0 k - corner V F f 1 k) ^ 2)) ∧
    (∃ out, doublearea Real.sqrt asserts V F = .ok out ∧ out.length = F.rows ∧
      doublearea_l Real.sqrt false (edge_lengths Real.sqrt V F) = .ok out ∧
      (doublearea_l Real.sqrt true (edge_lengths Real.sqrt V F) = .ok out
        ∨ doublearea_l Real.sqrt true (edge_lengths Real.sqrt V F) = .error .kahan)) := by
  refine ⟨fun f => by simp [edge_lengths, distance, hV, corner], ?_⟩
  have hrel : doublearea_l Real.sqrt false (edge_lengths Real.sqrt V F)
      = .ok (doublearea3 Real.sqrt V F) := by
    rw [doublearea_l_release, doublearea3_eq]
    have hr : (edge_lengths Real.sqrt V F).rows = F.rows := rfl
    rw [hr]
    congr 1
    exact List.map_congr_left (fun f _ => kernelValue_edge_lengths3 V F hV f)
  refine ⟨doublearea3 Real.sqrt V F, by simp [doublearea, hV, hF], by simp [doublearea3_eq],
    hrel, ?_⟩
  rw [← hrel]
  exact doublearea_l_of_triangle _ rfl (fun i _ => edge_lengths_triangle V F i)

/-- Witness of C8: the right triangle `(0,0,0), (3,0,0), (0,4,0)`. -/
theorem doublearea_l_edge_lengths_eq_dim3_witness :
    ∃ out, doublearea Real.sqrt false
        (Mat.ofRows 0 3 [[0, 0, 0], [3, 0, 0], [0, 4, 0]]) (Mat.ofRows 0 3 [[0, 1, 2]])
          = .ok out ∧
      doublearea_l Real.sqrt false (edge_lengths Real.sqrt
        (Mat.ofRows 0 3 [[0, 0, 0], [3, 0, 0], [0, 4, 0]]) (Mat.ofRows 0 3 [[0, 1, 2]]))
          = .ok out := by
  obtain ⟨_, out, h1, _, h3, _⟩ := doublearea_l_edge_lengths_eq_dim3 false
    (Mat.ofRows 0 3 [[0, 0, 0], [3, 0, 0], [0, 4, 0]]) (Mat.ofRows 0 3 [[0, 1, 2]]) rfl rfl
  exact ⟨out, h1, h3⟩

/-- In a dimension other than 2 and 3 the dispatcher measures the edge lengths and
calls the kernel. -/
theorem doublearea_general (sqrt : ℝ → ℝ) (asserts : Bool) (V : Mat ℝ) (F : Mat Nat)
    (h2 : V.cols ≠ 2) (h3 : V.cols ≠ 3) (hF : F.cols = 3) :
    doublearea sqrt asserts V F = doublearea_l sqrt asserts (edge_lengths sqrt V F) := by
  unfold doublearea
  rw [if_neg (by simp [hF])]
  split
  · next h => exact absurd h h3
  · next h => exact absurd h h2
  · rfl

/-- C10, amended. Non-negativity outside 2D, in exact real arithmetic: for a vertex table
of dimension other than 2 and a valid triangle table, the call returns one entry per triangle and every entry is a
non-negative real number (not NaN): in the 3D path as a square root of a sum of
squares, in the general path because measured edge lengths satisfy the triangle
inequality, so the radicand is never negative.  With assertions enabled the call
returns the same entries unless it aborts with the Kahan assertion; the NaN assertion
never fails. -/
theorem doublearea_nonneg (V : Mat ℝ) (F : Mat Nat) (hd : V.cols ≠ 2) (hF : F.cols = 3) :
    (∃ out, doublearea Real.sqrt false V F = .ok out ∧ out.length = F.rows ∧
      ∀ f, f < F.rows → ∃ v : ℝ, 0 ≤ v ∧ out[f]? = some (some v)) ∧
    (doublearea Real.sqrt true V F = doublearea Real.sqrt false V F
      ∨ doublearea Real.sqrt true V F = .error .kahan) := by
  by_cases h3 : V.cols = 3
  · refine ⟨⟨doublearea3 Real.sqrt V F, by simp [doublearea, h3], by simp [doublearea3_eq],
      ?_⟩, ?_⟩
    · intro f hf
      have hX : ¬ (0 + projArea V F f 0 1 * projArea V F f 0 1
          + projArea V F f 1 2 * projArea V F f 1 2
          + projArea V F f 2 0 * projArea V F f 2 0 < 0) := by
        have := mul_self_nonneg (projArea V F f 0 1)
        have := mul_self_nonneg (projArea V F f 1 2)
        have := mul_self_nonneg (projArea V F f 2 0)
        linarith
      refine ⟨Real.sqrt (0 + projArea V F f 0 1 * projArea V F f 0 1
          + projArea V F f 1 2 * projArea V F f 1 2
          + projArea V F f 2 0 * projArea V F f 2 0), Real.sqrt_nonneg _, ?_⟩
      rw [doublearea3_eq, getElem?_map_range _ _ _ hf]
      simp only [fsqrt, if_neg hX]
    · left
      simp [doublearea, h3, hF]
  · rw [doublearea_general Real.sqrt false V F hd h3 hF,
      doublearea_general Real.sqrt true V F hd h3 hF]
    refine ⟨⟨_, doublearea_l_release Real.sqrt _, by simp [edge_lengths], ?_⟩,
      doublearea_l_of_triangle _ rfl (fun i _ => edge_lengths_triangle V F i)⟩
    intro f hf
    obtain ⟨t0, t1, t2⟩ := edge_lengths_triangle V F f
    have hn := kahanArg_nonneg_of_triangle _ _ _ t0 t1 t2
    have hf2 : f < (edge_lengths Real.sqrt V F).rows := hf
    refine ⟨2 * (1 / 4) * Real.sqrt (kahanArg ((edge_lengths Real.sqrt V F).coeff f 0)
        ((edge_lengths Real.sqrt V F).coeff f 1) ((edge_lengths Real.sqrt V F).coeff f 2)),
      mul_nonneg (by norm_num) (Real.sqrt_nonneg _), ?_⟩
    rw [getElem?_map_range _ _ _ hf2, kernelValue_sort Real.sqrt _ rfl f]
    simp only [fsqrt, if_neg (not_lt.mpr hn), Option.map_some']

/-- Witness of C10, amended: a triangle in dimension 4. -/
theorem doublearea_nonneg_witness :
    ∃ out, doublearea Real.sqrt false
        (Mat.ofRows 0 4 [[0, 0, 0, 0], [1, 0, 0, 0], [0, 1, 0, 0]])
        (Mat.ofRows 0 3 [[0, 1, 2]]) = .ok out ∧
      ∃ v : ℝ, 0 ≤ v ∧ out[0]? = some (some v) := by
  obtain ⟨⟨out, h1, _, h3⟩, _⟩ := doublearea_nonneg
    (Mat.ofRows 0 4 [[0, 0, 0, 0], [1, 0, 0, 0], [0, 1, 0, 0]])
    (Mat.ofRows 0 3 [[0, 1, 2]]) (by decide) rfl
  exact ⟨out, h1, h3 0 (by decide)⟩

end Measured

/-! ## Rigid motions, batches and the remaining properties of the kernel -/

section Invariance

variable {K : Type} [LinearOrderedField K]

/-- An orthogonal matrix preserves the squared norm of the cross product. -/
theorem cross_sq_orthogonal (R : Matrix (Fin 3) (Fin 3) K) (hR : R.transpose * R = 1)
    (r0 r1 r2 s0 s1 s2 : K) :
    ((R 0 0 * r0 + R 0 1 * r1 + R 0 2 * r2) * (R 1 0 * s0 + R 1 1 * s1 + R 1 2 * s2)
        - (R 1 0 * r0 + R 1 1 * r1 + R 1 2 * r2) * (R 0 0 * s0 + R 0 1 * s1 + R 0 2 * s2)) ^ 2
      + ((R 1 0 * r0 + R 1 1 * r1 + R 1 2 * r2) * (R 2 0 * s0 + R 2 1 * s1 + R 2 2 * s2)
        - (R 2 0 * r0 + R 2 1 * r1 + R 2 2 * r2) * (R 1 0 * s0 + R 1 1 * s1 + R 1 2 * s2)) ^ 2
      + ((R 2 0 * r0 + R 2 1 * r1 + R 2 2 * r2) * (R 0 0 * s0 + R 0 1 * s1 + R 0 2 * s2)
        - (R 0 0 * r0 + R 0 1 * r1 + R 0 2 * r2) * (R 2 0 * s0 + R 2 1 * s1 + R 2 2 * s2)) ^ 2
      = (r0 * s1 - r1 * s0) ^ 2 + (r1 * s2 - r2 * s1) ^ 2 + (r2 * s0 - r0 * s2) ^ 2 := by
  have h00 : R 0 0 * R 0 0 + R 1 0 * R 1 0 + R 2 0 * R 2 0 = 1 := by
    have h := congrFun (congrFun hR 0) 0
    simpa [Matrix.mul_apply, Fin.sum_univ_three] using h
  have h11 : R 0 1 * R 0 1 + R 1 1 * R 1 1 + R 2 1 * R 2 1 = 1 := by
    have h := congrFun (congrFun hR 1) 1
    simpa [Matrix.mul_apply, Fin.sum_univ_three] using h
  have h22 : R 0 2 * R 0 2 + R 1 2 * R 1 2 + R 2 2 * R 2 2 = 1 := by
    have h := congrFun (congrFun hR 2) 2
    simpa [Matrix.mul_apply, Fin.sum_univ_three] using h
  have h01 : R 0 0 * R 0 1 + R 1 0 * R 1 1 + R 2 0 * R 2 1 = 0 := by
    have h := congrFun (congrFun hR 0) 1
    simpa [Matrix.mul_apply, Fin.sum_univ_three] using h
  have h02 : R 0 0 * R 0 2 + R 1 0 * R 1 2 + R 2 0 * R 2 2 = 0 := by
    have h := congrFun (congrFun hR 0) 2
    simpa [Matrix.mul_apply, Fin.sum_univ_three] using h
  have h12 : R 0 1 * R 0 2 + R 1 1 * R 1 2 + R 2 1 * R 2 2 = 0 := by
    have h := congrFun (congrFun hR 1) 2
    simpa [Matrix.mul_apply, Fin.sum_univ_three] using h
  have hP : (R 0 0 * r0 + R 0 1 * r1 + R 0 2 * r2) ^ 2
      + (R 1 0 * r0 + R 1 1 * r1 + R 1 2 * r2) ^ 2
      + (R 2 0 * r0 + R 2 1 * r1 + R 2 2 * r2) ^ 2 = r0 ^ 2 + r1 ^ 2 + r2 ^ 2 := by
    linear_combination r0 ^ 2 * h00 + r1 ^ 2 * h11 + r2 ^ 2 * h22 + 2 * r0 * r1 * h01
      + 2 * r0 * r2 * h02 + 2 * r1 * r2 * h12
  have hQ : (R 0 0 * s0 + R 0 1 * s1 + R 0 2 * s2) ^ 2
      + (R 1 0 * s0 + R 1 1 * s1 + R 1 2 * s2) ^ 2
      + (R 2 0 * s0 + R 2 1 * s1 + R 2 2 * s2) ^ 2 = s0 ^ 2 + s1 ^ 2 + s2 ^ 2 := by
    linear_combination s0 ^ 2 * h00 + s1 ^ 2 * h11 + s2 ^ 2 * h22 + 2 * s0 * s1 * h01
      + 2 * s0 * s2 * h02 + 2 * s1 * s2 * h12
  have hD : (R 0 0 * r0 + R 0 1 * r1 + R 0 2 * r2) * (R 0 0 * s0 + R 0 1 * s1 + R 0 2 * s2)
      + (R 1 0 * r0 + R 1 1 * r1 + R 1 2 * r2) * (R 1 0 * s0 + R 1 1 * s1 + R 1 2 * s2)
      + (R 2 0 * r0 + R 2 1 * r1 + R 2 2 * r2) * (R 2 0 * s0 + R 2 1 * s1 + R 2 2 * s2)
      = r0 * s0 + r1 * s1 + r2 * s2 := by
    linear_combination r0 * s0 * h00 + r1 * s1 * h11 + r2 * s2 * h22
      + (r0 * s1 + r1 * s0) * h01 + (r0 * s2 + r2 * s0) * h02 + (r1 * s2 + r2 * s1) * h12
  have hL : ∀ a0 a1 a2 b0 b1 b2 : K,
      (a0 * b1 - a1 * b0) ^ 2 + (a1 * b2 - a2 * b1) ^ 2 + (a2 * b0 - a0 * b2) ^ 2
        = (a0 ^ 2 + a1 ^ 2 + a2 ^ 2) * (b0 ^ 2 + b1 ^ 2 + b2 ^ 2)
          - (a0 * b0 + a1 * b1 + a2 * b2) ^ 2 := fun a0 a1 a2 b0 b1 b2 => by ring
  rw [hL, hL, hP, hQ, hD]

/-- The sum of the squared projected areas of a triangle is unchanged by a rigid motion
of the vertices. -/
theorem projArea_sq_rigidMotion (R : Matrix (Fin 3) (Fin 3) K) (hR : R.transpose * R = 1)
    (t : Fin 3 → K) (V : Mat K) (F : Mat Nat) (f : Nat) :
    0 + projArea (rigidMotion R t V) F f 0 1 * projArea (rigidMotion R t V) F f 0 1
        + projArea (rigidMotion R t V) F f 1 2 * projArea (rigidMotion R t V) F f 1 2
        + projArea (rigidMotion R t V) F f 2 0 * projArea (rigidMotion R t V) F f 2 0
      = 0 + projArea V F f 0 1 * projArea V F f 0 1
        + projArea V F f 1 2 * projArea V F f 1 2
        + projArea V F f 2 0 * projArea V F f 2 0 := by
  have key := cross_sq_orthogonal R hR
    (corner V F f 0 0 - corner V F f 2 0) (corner V F f 0 1 - corner V F f 2 1)
    (corner V F f 0 2 - corner V F f 2 2) (corner V F f 1 0 - corner V F f 2 0)
    (corner V F f 1 1 - corner V F f 2 1) (corner V F f 1 2 - corner V F f 2 2)
  have h0 : (0 : Nat) < 3 := by decide
  have h1 : (1 : Nat) < 3 := by decide
  have h2 : (2 : Nat) < 3 := by decide
  have e0 : (⟨0, h0⟩ : Fin 3) = 0 := rfl
  have e1 : (⟨1, h1⟩ : Fin 3) = 1 := rfl
  have e2 : (⟨2, h2⟩ : Fin 3) = 2 := rfl
  simp only [projArea, cross2, corner, rigidMotion, dif_pos h0, dif_pos h1, dif_pos h2,
    e0, e1, e2, Fin.sum_univ_three, Fin.val_zero, Fin.val_one, Fin.val_two] at key ⊢
  linear_combination key

/-- C11. Rigid-motion invariance in 3D: for a 3D vertex table, a valid triangle table, a
translation `t` and a rotation `R` (orthogonal 3x3 matrix of determinant 1), the call on
the vertices `R*v + t` returns exactly what the call on the original vertices returns,
entry by entry. -/
theorem doublearea_rigid_motion (asserts : Bool) (V : Mat ℝ) (F : Mat Nat)
    (hV : V.cols = 3) (hF : F.cols = 3) (R : Matrix (Fin 3) (Fin 3) ℝ) (t : Fin 3 → ℝ)
    (hR : R.transpose * R = 1) (_hdet : R.det = 1) :
    ∃ out, doublearea Real.sqrt asserts V F = .ok out ∧ out.length = F.rows ∧
      doublearea Real.sqrt asserts (rigidMotion R t V) F = .ok out := by
  have hV2 : (rigidMotion R t V).cols = 3 := hV
  refine ⟨doublearea3 Real.sqrt V F, by simp [doublearea, hV, hF], by simp [doublearea3_eq],
    ?_⟩
  have h : doublearea Real.sqrt asserts (rigidMotion R t V) F
      = .ok (doublearea3 Real.sqrt (rigidMotion R t V) F) := by
    simp [doublearea, hV2, hF]
  rw [h, doublearea3_eq, doublearea3_eq]
  congr 1
  apply List.map_congr_left
  intro f _
  rw [projArea_sq_rigidMotion R hR t V F f]

/-- Witness of C11: a quarter turn about the third axis followed by the translation
`(1, 2, 3)`. -/
theorem doublearea_rigid_motion_witness :
    ∃ out, doublearea Real.sqrt true
        (Mat.ofRows 0 3 [[0, 0, 0], [1, 0, 0], [0, 1, 0]]) (Mat.ofRows 0 3 [[0, 1, 2]])
          = .ok out ∧ out.length = 1 ∧
      doublearea Real.sqrt true
        (rigidMotion !![0, -1, 0; 1, 0, 0; 0, 0, 1] ![1, 2, 3]
          (Mat.ofRows 0 3 [[0, 0, 0], [1, 0, 0], [0, 1, 0]])) (Mat.ofRows 0 3 [[0, 1, 2]])
          = .ok out :=
  doublearea_rigid_motion true
    (Mat.ofRows 0 3 [[0, 0, 0], [1, 0, 0], [0, 1, 0]]) (Mat.ofRows 0 3 [[0, 1, 2]]) rfl rfl
    !![0, -1, 0; 1, 0, 0; 0, 0, 1] ![1, 2, 3]
    (by
      ext i j
      fin_cases i <;> fin_cases j <;>
        simp [Matrix.mul_apply, Fin.sum_univ_three, Matrix.transpose_apply,
          Matrix.one_apply, Matrix.vecHead, Matrix.vecTail])
    (by simp [Matrix.det_fin_three])

/-- C18, amended. Consistency of the 2D and 3D paths, in exact real arithmetic: for a 2D
vertex table and a valid triangle table, the 3D path on the table extended by a zero third coordinate returns, for each
triangle, the absolute value of the signed result of the 2D path. -/
theorem doublearea_extendZero (asserts : Bool) (V : Mat ℝ) (F : Mat Nat)
    (hV : V.cols = 2) (hF : F.cols = 3) :
    ∃ out2 out3, doublearea Real.sqrt asserts V F = .ok out2 ∧
      doublearea Real.sqrt asserts (extendZero V) F = .ok out3 ∧
      out2.length = F.rows ∧ out3.length = F.rows ∧
      ∀ f, f < F.rows → ∃ a : ℝ, out2[f]? = some (some a) ∧ out3[f]? = some (some |a|) := by
  have hV3 : (extendZero V).cols = 3 := rfl
  refine ⟨(doublearea2 V F).map some, doublearea3 Real.sqrt (extendZero V) F,
    by simp [doublearea, hV, hF], by simp [doublearea, hV3, hF], by simp [doublearea2],
    by simp [doublearea3_eq], ?_⟩
  intro f hf
  refine ⟨projArea V F f 0 1, by simp [doublearea2_eq, hf], ?_⟩
  rw [doublearea3_eq, getElem?_map_range _ _ _ hf]
  have e01 : projArea (extendZero V) F f 0 1 = projArea V F f 0 1 := by
    simp [projArea, cross2, corner, extendZero]
  have e12 : projArea (extendZero V) F f 1 2 = 0 := by
    simp [projArea, cross2, corner, extendZero]
  have e20 : projArea (extendZero V) F f 2 0 = 0 := by
    simp [projArea, cross2, corner, extendZero]
  rw [e01, e12, e20]
  have hn : ¬ (0 + projArea V F f 0 1 * projArea V F f 0 1 + 0 * 0 + 0 * 0 < 0) := by
    have := mul_self_nonneg (projArea V F f 0 1)
    linarith
  simp only [fsqrt, if_neg hn]
  congr 2
  rw [← Real.sqrt_mul_self_eq_abs]
  congr 1
  ring

/-- Witness of C18, amended: the clockwise triangle `(0,0), (0,1), (1,0)`, of signed value -1. -/
theorem doublearea_extendZero_witness :
    ∃ out2 out3, doublearea Real.sqrt true
        (Mat.ofRows 0 2 [[0, 0], [0, 1], [1, 0]]) (Mat.ofRows 0 3 [[0, 1, 2]]) = .ok out2 ∧
      doublearea Real.sqrt true
        (extendZero (Mat.ofRows 0 2 [[0, 0], [0, 1], [1, 0]])) (Mat.ofRows 0 3 [[0, 1, 2]])
          = .ok out3 ∧
      ∃ a : ℝ, out2[0]? = some (some a) ∧ out3[0]? = some (some |a|) := by
  obtain ⟨out2, out3, h2, h3, _, _, h⟩ := doublearea_extendZero true
    (Mat.ofRows 0 2 [[0, 0], [0, 1], [1, 0]]) (Mat.ofRows 0 3 [[0, 1, 2]]) rfl rfl
  exact ⟨out2, out3, h2, h3, h 0 (by decide)⟩

end Invariance

section KernelChecks

variable {K : Type} [LinearOrderedField K]

/-- The loop body with assertions, as a case distinction on the difference tested by
the Kahan assertion and on the sign of the radicand. -/
theorem kernelRow_asserts (sqrt : K → K) (l : Mat K) (i : Nat) :
    kernelRow sqrt true l i
      = if l.coeff i 2 - (l.coeff i 0 - l.coeff i 1) = 0 then .error .kahan
        else if kahanArg (l.coeff i 0) (l.coeff i 1) (l.coeff i 2) < 0 then
          .error .producedNaN
        else .ok (some (2 * (1 / 4)
          * sqrt (kahanArg (l.coeff i 0) (l.coeff i 1) (l.coeff i 2)))) := by
  simp only [kernelRow, kernelValue, fsqrt, Bool.true_and, decide_eq_true_eq]
  split_ifs <;> simp_all

/-- The call with assertions on a table of one row and three columns. -/
theorem doublearea_l_asserts_one_row (sqrt : K → K) (x y z : K) :
    doublearea_l sqrt true (Mat.ofRows 0 3 [[x, y, z]])
      = (match kernelRow sqrt true (sort (Mat.ofRows 0 3 [[x, y, z]])) 0 with
        | .error e => .error e
        | .ok v => .ok [v]) := by
  have e : doublearea_l sqrt true (Mat.ofRows 0 3 [[x, y, z]])
      = forRows (kernelRow sqrt true (sort (Mat.ofRows 0 3 [[x, y, z]]))) [0] := rfl
  rw [e]
  simp only [forRows]
  generalize kernelRow sqrt true (sort (Mat.ofRows 0 3 [[x, y, z]])) 0 = r
  cases r <;> rfl

/-- C16, amended. Abort condition of the kernel with assertions enabled, in exact
arithmetic (an ordered field), for a sorted row `a ≥ b ≥ c ≥ 0`: the Kahan assertion fails exactly when `c - (a - b) = 0`, that is
`a = b + c`, and passes when `a > b + c`; the value is NaN exactly when the radicand is
negative, that is `a > b + c`, and then the NaN assertion fails; the call completes
without abort exactly when `a < b + c`. -/
theorem kernel_abort_condition (sqrt : K → K) (a b c : K) (hc : 0 ≤ c) (hbc : c ≤ b)
    (hab : b ≤ a) :
    (kernelRow sqrt true (sort (Mat.ofRows 0 3 [[a, b, c]])) 0 = .error .kahan
        ↔ c - (a - b) = 0) ∧
    (c - (a - b) = 0 ↔ a = b + c) ∧
    (b + c < a → kernelRow sqrt true (sort (Mat.ofRows 0 3 [[a, b, c]])) 0 ≠ .error .kahan) ∧
    (kernelValue sqrt (sort (Mat.ofRows 0 3 [[a, b, c]])) 0 = none ↔ kahanArg a b c < 0) ∧
    (kahanArg a b c < 0 ↔ b + c < a) ∧
    (kernelRow sqrt true (sort (Mat.ofRows 0 3 [[a, b, c]])) 0 = .error .producedNaN
        ↔ b + c < a) ∧
    ((∃ out, doublearea_l sqrt true (Mat.ofRows 0 3 [[a, b, c]]) = .ok out) ↔ a < b + c) := by
  have s0 : (sort (Mat.ofRows 0 3 [[a, b, c]])).coeff 0 0 = a :=
    sort_ofRows_desc a b c hab hbc 0
  have s1 : (sort (Mat.ofRows 0 3 [[a, b, c]])).coeff 0 1 = b :=
    sort_ofRows_desc a b c hab hbc 1
  have s2 : (sort (Mat.ofRows 0 3 [[a, b, c]])).coeff 0 2 = c :=
    sort_ofRows_desc a b c hab hbc 2
  have hneg : kahanArg a b c < 0 ↔ b + c < a := by
    rw [← not_le, kahanArg_nonneg_iff a b c hc hbc hab, not_le]
  have hrow := kernelRow_asserts sqrt (sort (Mat.ofRows 0 3 [[a, b, c]])) 0
  rw [s0, s1, s2] at hrow
  have hval : kernelValue sqrt (sort (Mat.ofRows 0 3 [[a, b, c]])) 0 = none
      ↔ kahanArg a b c < 0 := by
    simp only [kernelValue, s0, s1, s2, fsqrt]
    split_ifs with h <;> simp [h]
  have hd : c - (a - b) = 0 ↔ a = b + c :=
    ⟨fun h => by linarith, fun h => by linarith⟩
  rw [doublearea_l_asserts_one_row, hrow]
  refine ⟨?_, hd, ?_, hval, hneg, ?_, ?_⟩
  · split_ifs <;> simp_all
  · intro h
    have h1 : c - (a - b) ≠ 0 := fun h0 => by linarith
    rw [if_neg h1]
    split_ifs <;> simp
  · by_cases h1 : c - (a - b) = 0
    · rw [if_pos h1]
      have : ¬ (b + c < a) := by linarith
      simp [this]
    · rw [if_neg h1, ← hneg]
      split_ifs with h2 <;> simp [h2]
  · by_cases h1 : c - (a - b) = 0
    · rw [if_pos h1]
      have : ¬ (a < b + c) := by linarith
      simp [this]
    · rw [if_neg h1]
      by_cases h2 : kahanArg a b c < 0
      · rw [if_pos h2]
        have : ¬ (a < b + c) := by
          have := hneg.mp h2
          linarith
        simp [this]
      · rw [if_neg h2]
        have h3 : ¬ (b + c < a) := fun h => h2 (hneg.mpr h)
        have h4 : a ≠ b + c := fun h => h1 (hd.mpr h)
        have : a < b + c := lt_of_le_of_ne (not_lt.mp h3) h4
        simp [this]

/-- Witness of C16, amended: the sorted row `(5, 4, 3)` completes. -/
theorem kernel_abort_condition_witness :
    ∃ out, doublearea_l Real.sqrt true (Mat.ofRows 0 3 [[5, 4, 3]]) = .ok out :=
  (kernel_abort_condition Real.sqrt 5 4 3 (by norm_num) (by norm_num) (by norm_num)).2.2.2.2.2.2.mpr
    (by norm_num)

/-- Counterexample to C14 as stated: for the sorted lengths `(5, 4, 3)` the value of the
kernel's formula is 12, while 4 times Heron's formula is `4 * sqrt(6*1*2*3) = 24`. -/
theorem kernelValue_ne_four_heron :
    kernelValue Real.sqrt (Mat.ofRows 0 3 [[5, 4, 3]]) 0 = some 12 ∧
      4 * Real.sqrt ((5 + 4 + 3) / 2 * ((5 + 4 + 3) / 2 - 5) * ((5 + 4 + 3) / 2 - 4)
        * ((5 + 4 + 3) / 2 - 3)) = 24 ∧
      kernelValue Real.sqrt (Mat.ofRows 0 3 [[5, 4, 3]]) 0
        ≠ some (4 * Real.sqrt ((5 + 4 + 3) / 2 * ((5 + 4 + 3) / 2 - 5)
          * ((5 + 4 + 3) / 2 - 4) * ((5 + 4 + 3) / 2 - 3))) := by
  have h24 : Real.sqrt 576 = 24 := by
    rw [show (576 : ℝ) = 24 ^ 2 by norm_num]
    exact Real.sqrt_sq (by norm_num)
  have h6 : Real.sqrt 36 = 6 := by
    rw [show (36 : ℝ) = 6 ^ 2 by norm_num]
    exact Real.sqrt_sq (by norm_num)
  have hk : kahanArg (5 : ℝ) 4 3 = 576 := by
    simp only [kahanArg]
    norm_num
  have hv : kernelValue Real.sqrt (Mat.ofRows 0 3 [[5, 4, 3]]) 0 = some 12 := by
    have e : kernelValue Real.sqrt (Mat.ofRows 0 3 [[5, 4, 3]]) 0
        = (fsqrt Real.sqrt (kahanArg (5 : ℝ) 4 3)).map (fun r => 2 * (1 / 4) * r) := rfl
    rw [e, hk]
    simp only [fsqrt, if_neg (by norm_num : ¬ ((576 : ℝ) < 0)), Option.map_some', h24]
    norm_num
  have hh : 4 * Real.sqrt ((5 + 4 + 3) / 2 * ((5 + 4 + 3) / 2 - 5) * ((5 + 4 + 3) / 2 - 4)
      * ((5 + 4 + 3) / 2 - 3)) = 24 := by
    rw [show ((5 : ℝ) + 4 + 3) / 2 * ((5 + 4 + 3) / 2 - 5) * ((5 + 4 + 3) / 2 - 4)
      * ((5 + 4 + 3) / 2 - 3) = 36 by norm_num, h6]
    norm_num
  refine ⟨hv, hh, ?_⟩
  rw [hv, hh]
  norm_num

/-- C14, amended. For lengths `(a, b, c)` satisfying the triangle inequality the value of
the kernel's formula, `0.5 * sqrt((a+(b+c))*(c-(a-b))*(c+(a-b))*(a+(b-c)))`, equals 2 times
Heron's formula `sqrt(s*(s-a)*(s-b)*(s-c))` with `s = (a+b+c)/2`; the radicand is 16 times
Heron's radicand, so the square root of the radicand alone is 4 times Heron's formula. -/
theorem kernelValue_eq_two_heron (l : Mat ℝ) (i : Nat)
    (t0 : l.coeff i 0 ≤ l.coeff i 1 + l.coeff i 2)
    (t1 : l.coeff i 1 ≤ l.coeff i 0 + l.coeff i 2)
    (t2 : l.coeff i 2 ≤ l.coeff i 0 + l.coeff i 1) :
    kernelValue Real.sqrt l i
        = some (2 * Real.sqrt ((l.coeff i 0 + l.coeff i 1 + l.coeff i 2) / 2
            * ((l.coeff i 0 + l.coeff i 1 + l.coeff i 2) / 2 - l.coeff i 0)
            * ((l.coeff i 0 + l.coeff i 1 + l.coeff i 2) / 2 - l.coeff i 1)
            * ((l.coeff i 0 + l.coeff i 1 + l.coeff i 2) / 2 - l.coeff i 2))) ∧
      kernelValue Real.sqrt l i
        = some (1 / 2 * Real.sqrt (kahanArg (l.coeff i 0) (l.coeff i 1) (l.coeff i 2))) ∧
      Real.sqrt (kahanArg (l.coeff i 0) (l.coeff i 1) (l.coeff i 2))
        = 4 * Real.sqrt ((l.coeff i 0 + l.coeff i 1 + l.coeff i 2) / 2
            * ((l.coeff i 0 + l.coeff i 1 + l.coeff i 2) / 2 - l.coeff i 0)
            * ((l.coeff i 0 + l.coeff i 1 + l.coeff i 2) / 2 - l.coeff i 1)
            * ((l.coeff i 0 + l.coeff i 1 + l.coeff i 2) / 2 - l.coeff i 2)) := by
  have hn := kahanArg_nonneg_of_triangle _ _ _ t0 t1 t2
  have h16 : Real.sqrt 16 = 4 := by
    rw [show (16 : ℝ) = 4 ^ 2 by norm_num]
    exact Real.sqrt_sq (by norm_num)
  have h4 : Real.sqrt (kahanArg (l.coeff i 0) (l.coeff i 1) (l.coeff i 2))
      = 4 * Real.sqrt ((l.coeff i 0 + l.coeff i 1 + l.coeff i 2) / 2
          * ((l.coeff i 0 + l.coeff i 1 + l.coeff i 2) / 2 - l.coeff i 0)
          * ((l.coeff i 0 + l.coeff i 1 + l.coeff i 2) / 2 - l.coeff i 1)
          * ((l.coeff i 0 + l.coeff i 1 + l.coeff i 2) / 2 - l.coeff i 2)) := by
    rw [kahanArg_eq_heron, Real.sqrt_mul (by norm_num : (0 : ℝ) ≤ 16), h16]
    congr 2
    ring
  have hv : kernelValue Real.sqrt l i
      = some (1 / 2 * Real.sqrt (kahanArg (l.coeff i 0) (l.coeff i 1) (l.coeff i 2))) := by
    simp only [kernelValue, fsqrt, if_neg (not_lt.mpr hn), Option.map_some']
    congr 1
    ring
  refine ⟨?_, hv, h4⟩
  rw [hv, h4]
  congr 1
  ring

/-- Witness of C14, amended: the lengths `(5, 4, 3)`. -/
theorem kernelValue_eq_two_heron_witness :
    kernelValue Real.sqrt (Mat.ofRows 0 3 [[5, 4, 3]]) 0
      = some (2 * Real.sqrt ((5 + 4 + 3) / 2 * ((5 + 4 + 3) / 2 - 5)
          * ((5 + 4 + 3) / 2 - 4) * ((5 + 4 + 3) / 2 - 3))) := by
  have h := (kernelValue_eq_two_heron (Mat.ofRows 0 3 [[5, 4, 3]]) 0
    (by simp [Mat.ofRows]; norm_num) (by simp [Mat.ofRows]; norm_num)
    (by simp [Mat.ofRows]; norm_num)).1
  simpa [Mat.ofRows] using h

/-- Counterexample to C15 as stated: without assertions a triangle table of 4 columns
and an edge-length table of 4 columns are not rejected; an output entry is written. -/
theorem doublearea_accepts_four_columns :
    doublearea Real.sqrt false (Mat.ofRows 0 2 [[0, 0], [1, 0], [0, 1], [1, 1]])
        (Mat.ofRows 0 4 [[0, 1, 2, 3]]) = .ok [some 1] ∧
      ∃ v, doublearea_l Real.sqrt false (Mat.ofRows 0 4 [[3, 4, 5, 6]]) = .ok [v] := by
  refine ⟨?_, ?_⟩
  · have e : doublearea Real.sqrt false (Mat.ofRows 0 2 [[0, 0], [1, 0], [0, 1], [1, 1]])
        (Mat.ofRows 0 4 [[0, 1, 2, 3]])
        = .ok ((doublearea2 (Mat.ofRows 0 2 [[0, 0], [1, 0], [0, 1], [1, 1]])
            (Mat.ofRows 0 4 [[0, 1, 2, 3]])).map some) := rfl
    rw [e, doublearea2_eq]
    have h1 : List.range 1 = [0] := rfl
    have hr : (Mat.ofRows (0 : Nat) 4 [[0, 1, 2, 3]]).rows = 1 := rfl
    rw [hr, h1]
    simp [projArea, cross2, corner, Mat.ofRows]
  · rw [doublearea_l_release]
    exact ⟨_, rfl⟩

/-- C15, amended. With assertions enabled, a triangle table or an edge-length table that
does not have exactly 3 columns makes the call abort at the entry assertion, with no
output, for every vertex dimension. -/
theorem doublearea_rejects_non_triangles (sqrt : K → K) :
    (∀ (V : Mat K) (F : Mat Nat), F.cols ≠ 3 →
        doublearea sqrt true V F = .error .notTriangles) ∧
      (∀ ul : Mat K, ul.cols ≠ 3 → doublearea_l sqrt true ul = .error .notTriangles) := by
  refine ⟨fun V F h => ?_, fun ul h => ?_⟩
  · simp [doublearea, h]
  · simp [doublearea_l, h]

/-- Witness of C15, amended: tables of 4 columns. -/
theorem doublearea_rejects_non_triangles_witness :
    doublearea Real.sqrt true (Mat.ofRows 0 2 [[0, 0], [1, 0], [0, 1], [1, 1]])
        (Mat.ofRows 0 4 [[0, 1, 2, 3]]) = .error .notTriangles ∧
      doublearea_l Real.sqrt true (Mat.ofRows 0 4 [[3, 4, 5, 6]]) = .error .notTriangles :=
  ⟨(doublearea_rejects_non_triangles Real.sqrt).1 _ _ (by decide),
    (doublearea_rejects_non_triangles Real.sqrt).2 _ (by decide)⟩

/-- The call with assertions on a table of one row. -/
theorem doublearea_l_asserts_rows1 (sqrt : K → K) (ul : Mat K) (hc : ul.cols = 3)
    (hr : ul.rows = 1) :
    doublearea_l sqrt true ul
      = (match kernelRow sqrt true (sort ul) 0 with
        | .error e => .error e
        | .ok v => .ok [v]) := by
  unfold doublearea_l
  rw [if_neg (by simp [hc]), hr]
  have h1 : List.range 1 = [0] := rfl
  rw [h1]
  simp only [forRows]
  generalize kernelRow sqrt true (sort ul) 0 = r
  cases r <;> rfl

/-- A row of three zero lengths stays a row of zeros when sorted. -/
theorem sort_zero_row (ul : Mat K) (h : ul.cols = 3) (i : Nat)
    (h0 : ul.coeff i 0 = 0) (h1 : ul.coeff i 1 = 0) (h2 : ul.coeff i 2 = 0) :
    (sort ul).coeff i 0 = 0 ∧ (sort ul).coeff i 1 = 0 ∧ (sort ul).coeff i 2 = 0 := by
  have hp := (sort_row3 ul h i).1
  rw [h0, h1, h2] at hp
  have hm : ∀ x ∈ [(sort ul).coeff i 0, (sort ul).coeff i 1, (sort ul).coeff i 2],
      x = 0 := by
    intro x hx
    have := hp.subset hx
    simpa using this
  exact ⟨hm _ (by simp), hm _ (by simp), hm _ (by simp)⟩

/-- C13, the code at the failing input: three identical points in dimension 4.  With
assertions enabled the general path aborts with the Kahan assertion (the sorted lengths
are `(0, 0, 0)` and the tested difference is zero), although the value computed is
exactly 0, as the call without assertions shows; the 2D and the 3D path return exactly 0
for three identical points. -/
theorem doublearea_identical_points :
    doublearea Real.sqrt true
        (Mat.ofRows 0 4 [[1, 2, 3, 4], [1, 2, 3, 4], [1, 2, 3, 4]])
        (Mat.ofRows 0 3 [[0, 1, 2]]) = .error .kahan ∧
      doublearea Real.sqrt false
        (Mat.ofRows 0 4 [[1, 2, 3, 4], [1, 2, 3, 4], [1, 2, 3, 4]])
        (Mat.ofRows 0 3 [[0, 1, 2]]) = .ok [some 0] ∧
      doublearea Real.sqrt true (Mat.ofRows 0 2 [[1, 2], [1, 2], [1, 2]])
        (Mat.ofRows 0 3 [[0, 1, 2]]) = .ok [some 0] ∧
      doublearea Real.sqrt true (Mat.ofRows 0 3 [[1, 2, 3], [1, 2, 3], [1, 2, 3]])
        (Mat.ofRows 0 3 [[0, 1, 2]]) = .ok [some 0] := by
  have h1 : List.range 1 = [0] := rfl
  have hr : (Mat.ofRows (0 : Nat) 3 [[0, 1, 2]]).rows = 1 := rfl
  have hz : ∀ k, (edge_lengths Real.sqrt
      (Mat.ofRows 0 4 [[1, 2, 3, 4], [1, 2, 3, 4], [1, 2, 3, 4]])
      (Mat.ofRows 0 3 [[0, 1, 2]])).coeff 0 k = 0 := by
    intro k
    simp only [edge_lengths, distance]
    split_ifs <;> simp [Mat.ofRows, Finset.sum_range_succ]
  obtain ⟨z0, z1, z2⟩ := sort_zero_row _ rfl 0 (hz 0) (hz 1) (hz 2)
  refine ⟨?_, ?_, ?_, ?_⟩
  · rw [doublearea_general Real.sqrt true _ _ (by decide) (by decide) rfl,
      doublearea_l_asserts_rows1 Real.sqrt _ rfl rfl, kernelRow_asserts, z0, z1, z2]
    simp
  · rw [doublearea_general Real.sqrt false _ _ (by decide) (by decide) rfl,
      doublearea_l_release]
    have hr2 : (edge_lengths Real.sqrt
      (Mat.ofRows 0 4 [[1, 2, 3, 4], [1, 2, 3, 4], [1, 2, 3, 4]])
      (Mat.ofRows 0 3 [[0, 1, 2]])).rows = 1 := rfl
    rw [hr2, h1]
    simp [kernelValue, z0, z1, z2, kahanArg, fsqrt]
  · have e : doublearea Real.sqrt true (Mat.ofRows 0 2 [[1, 2], [1, 2], [1, 2]])
        (Mat.ofRows 0 3 [[0, 1, 2]])
        = .ok ((doublearea2 (Mat.ofRows 0 2 [[1, 2], [1, 2], [1, 2]])
            (Mat.ofRows 0 3 [[0, 1, 2]])).map some) := rfl
    rw [e, doublearea2_eq, hr, h1]
    simp [projArea, cross2, corner, Mat.ofRows]
  · have e : doublearea Real.sqrt true (Mat.ofRows 0 3 [[1, 2, 3], [1, 2, 3], [1, 2, 3]])
        (Mat.ofRows 0 3 [[0, 1, 2]])
        = .ok (doublearea3 Real.sqrt (Mat.ofRows 0 3 [[1, 2, 3], [1, 2, 3], [1, 2, 3]])
            (Mat.ofRows 0 3 [[0, 1, 2]])) := rfl
    rw [e, doublearea3_eq, hr, h1]
    simp [projArea, cross2, corner, Mat.ofRows, fsqrt]

end KernelChecks

section Rows

variable {K : Type} [LinearOrderedField K]

/-- The value of a row depends only on the three entries of the sorted row. -/
theorem kernelValue_congr (sqrt : K → K) (l l2 : Mat K) (i j : Nat)
    (h0 : l2.coeff j 0 = l.coeff i 0) (h1 : l2.coeff j 1 = l.coeff i 1)
    (h2 : l2.coeff j 2 = l.coeff i 2) :
    kernelValue sqrt l2 j = kernelValue sqrt l i := by
  simp only [kernelValue, h0, h1, h2]

/-- The loop body depends only on the three entries of the sorted row. -/
theorem kernelRow_congr (sqrt : K → K) (asserts : Bool) (l l2 : Mat K) (i j : Nat)
    (h0 : l2.coeff j 0 = l.coeff i 0) (h1 : l2.coeff j 1 = l.coeff i 1)
    (h2 : l2.coeff j 2 = l.coeff i 2) :
    kernelRow sqrt asserts l2 j = kernelRow sqrt asserts l i := by
  simp only [kernelRow, kernelValue, h0, h1, h2]

theorem kernelRow_ok_eq (sqrt : K → K) (asserts : Bool) (l : Mat K) (i : Nat)
    (v : Option K) (h : kernelRow sqrt asserts l i = .ok v) : v = kernelValue sqrt l i := by
  simp only [kernelRow] at h
  split at h
  · cases h
  · split at h
    · cases h
    · simp only [Except.ok.injEq] at h
      exact h.symm

theorem forRows_congr {ε β : Type} (body body2 : Nat → Except ε β) (is : List Nat)
    (h : ∀ i ∈ is, body2 i = body i) : forRows body2 is = forRows body is := by
  induction is with
  | nil => rfl
  | cons i is ih =>
    have hi := h i (List.mem_cons_self i is)
    have ht := ih (fun j hj => h j (List.mem_cons_of_mem i hj))
    simp only [forRows, hi, ht]

/-- Rows that are rearrangements of each other have the same sorted row. -/
theorem sort_congr_perm (ul ul2 : Mat K) (i j : Nat)
    (hp : (ul2.row j).Perm (ul.row i)) (k : Nat) :
    (sort ul2).coeff j k = (sort ul).coeff i k := by
  have e : (ul2.row j).insertionSort (fun x y : K => y ≤ x)
      = (ul.row i).insertionSort (fun x y : K => y ≤ x) := by
    apply List.eq_of_perm_of_sorted (r := fun x y : K => y ≤ x)
    · exact ((List.perm_insertionSort _ _).trans hp).trans
        (List.perm_insertionSort _ _).symm
    · exact List.sorted_insertionSort _ _
    · exact List.sorted_insertionSort _ _
  simp only [sort, e]

/-- C17. Order-independence of the kernel's input: when row `i` of a table of three
columns is replaced by a rearrangement of its three entries, the loop body gives the
same outcome for that row and the call returns the same value for it; when every row is
rearranged, the whole call returns the same result, with or without assertions. -/
theorem doublearea_l_row_order (sqrt : K → K) (asserts : Bool) (ul ul2 : Mat K)
    (h : ul.cols = 3) (h2 : ul2.cols = 3) (hr : ul2.rows = ul.rows) :
    (∀ i, i < ul.rows →
      [ul2.coeff i 0, ul2.coeff i 1, ul2.coeff i 2].Perm
        [ul.coeff i 0, ul.coeff i 1, ul.coeff i 2] →
      kernelRow sqrt asserts (sort ul2) i = kernelRow sqrt asserts (sort ul) i ∧
      ∃ out out2, doublearea_l sqrt false ul = .ok out ∧
        doublearea_l sqrt false ul2 = .ok out2 ∧ out2[i]? = out[i]?) ∧
    ((∀ i, i < ul.rows →
      [ul2.coeff i 0, ul2.coeff i 1, ul2.coeff i 2].Perm
        [ul.coeff i 0, ul.coeff i 1, ul.coeff i 2]) →
      doublearea_l sqrt asserts ul2 = doublearea_l sqrt asserts ul) := by
  have hs : ∀ i, [ul2.coeff i 0, ul2.coeff i 1, ul2.coeff i 2].Perm
      [ul.coeff i 0, ul.coeff i 1, ul.coeff i 2] →
      ∀ k, (sort ul2).coeff i k = (sort ul).coeff i k := by
    intro i hp k
    apply sort_congr_perm
    rw [row_of_cols3 ul h i, row_of_cols3 ul2 h2 i]
    exact hp
  refine ⟨?_, ?_⟩
  · intro i hi hp
    refine ⟨kernelRow_congr sqrt asserts _ _ i i (hs i hp 0) (hs i hp 1) (hs i hp 2),
      _, _, doublearea_l_release sqrt ul, doublearea_l_release sqrt ul2, ?_⟩
    rw [hr, getElem?_map_range _ _ _ hi, getElem?_map_range _ _ _ hi,
      kernelValue_congr sqrt _ _ i i (hs i hp 0) (hs i hp 1) (hs i hp 2)]
  · intro hall
    simp only [doublearea_l, h, h2, hr]
    split
    · rfl
    · apply forRows_congr
      intro i hi
      have hi2 : i < ul.rows := by simpa using hi
      exact kernelRow_congr sqrt asserts _ _ i i (hs i (hall i hi2) 0) (hs i (hall i hi2) 1)
        (hs i (hall i hi2) 2)

/-- Witness of C17: the rows `(3, 4, 5)` and `(5, 3, 4)`. -/
theorem doublearea_l_row_order_witness :
    doublearea_l Real.sqrt true (Mat.ofRows 0 3 [[5, 3, 4]])
      = doublearea_l Real.sqrt true (Mat.ofRows 0 3 [[3, 4, 5]]) := by
  apply (doublearea_l_row_order Real.sqrt true (Mat.ofRows 0 3 [[3, 4, 5]])
    (Mat.ofRows 0 3 [[5, 3, 4]]) rfl rfl rfl).2
  intro i hi
  have hi0 : i = 0 := by
    have : i < 1 := hi
    omega
  subst hi0
  have hp : [(5 : ℝ), 3, 4].Perm [3, 4, 5] := by
    have hc : ([(5 : ℝ)] ++ [3, 4]).Perm ([3, 4] ++ [5]) := List.perm_append_comm
    simpa using hc
  simpa [Mat.ofRows] using hp

end Rows

section Batch

variable {K : Type} [LinearOrderedField K]

theorem coeff_permuteRows {α : Type} (M : Mat α) (p : Equiv.Perm (Fin M.rows)) (i : Nat)
    (hi : i < M.rows) (k : Nat) :
    (permuteRows M p).coeff i k = M.coeff (p ⟨i, hi⟩) k := by
  simp [permuteRows, hi]

theorem row_permuteRows {α : Type} (M : Mat α) (p : Equiv.Perm (Fin M.rows)) (i : Nat)
    (hi : i < M.rows) : (permuteRows M p).row i = M.row (p ⟨i, hi⟩) := by
  simp [Mat.row, permuteRows, hi]

theorem sort_permuteRows (ul : Mat K) (p : Equiv.Perm (Fin ul.rows)) (i : Nat)
    (hi : i < ul.rows) (k : Nat) :
    (sort (permuteRows ul p)).coeff i k = (sort ul).coeff (p ⟨i, hi⟩) k := by
  apply sort_congr_perm
  rw [row_permuteRows ul p i hi]

/-- The kernel on a table with rearranged rows. -/
theorem doublearea_l_permuteRows (sqrt : K → K) (ul : Mat K)
    (p : Equiv.Perm (Fin ul.rows)) :
    ∃ out outp, doublearea_l sqrt false ul = .ok out ∧ out.length = ul.rows ∧
      doublearea_l sqrt false (permuteRows ul p) = .ok outp ∧ outp.length = ul.rows ∧
      (∀ i : Fin ul.rows, outp[(i : Nat)]? = out[(p i : Nat)]?) ∧
      (∀ o, doublearea_l sqrt true ul = .ok o →
        o = out ∧ doublearea_l sqrt true (permuteRows ul p) = .ok outp) := by
  have hval : ∀ (i : Nat) (hi : i < ul.rows),
      kernelValue sqrt (sort (permuteRows ul p)) i
        = kernelValue sqrt (sort ul) (p ⟨i, hi⟩) := fun i hi =>
    kernelValue_congr sqrt _ _ _ i (sort_permuteRows ul p i hi 0)
      (sort_permuteRows ul p i hi 1) (sort_permuteRows ul p i hi 2)
  refine ⟨_, _, doublearea_l_release sqrt ul, by simp,
    doublearea_l_release sqrt (permuteRows ul p), by simp [permuteRows], ?_, ?_⟩
  · intro i
    have hr : (permuteRows ul p).rows = ul.rows := rfl
    rw [hr, getElem?_map_range _ _ _ i.isLt, getElem?_map_range _ _ _ (p i).isLt,
      hval i i.isLt]
  · intro o ho
    refine ⟨doublearea_l_debug_ok sqrt ul o ho, ?_⟩
    simp only [doublearea_l, Bool.true_and] at ho
    split at ho
    · cases ho
    · next hc =>
      obtain ⟨_, hk⟩ := forRows_ok_inv _ _ _ ho
      have hc2 : ¬ (decide ((permuteRows ul p).cols ≠ 3) = true) := hc
      simp only [doublearea_l, Bool.true_and, if_neg hc2]
      apply forRows_of_ok
      intro i hi
      have hi2 : i < ul.rows := by
        have : i < (permuteRows ul p).rows := by simpa using hi
        exact this
      obtain ⟨v, _, hv⟩ := hk (p ⟨i, hi2⟩) (p ⟨i, hi2⟩) (by simp)
      rw [kernelRow_congr sqrt true _ _ _ i (sort_permuteRows ul p i hi2 0)
        (sort_permuteRows ul p i hi2 1) (sort_permuteRows ul p i hi2 2), hv,
        kernelRow_ok_eq sqrt true _ _ v hv, hval i hi2]

theorem edge_lengths_permuteRows (sqrt : K → K) (V : Mat K) (F : Mat Nat)
    (p : Equiv.Perm (Fin F.rows)) :
    edge_lengths sqrt V (permuteRows F p)
      = permuteRows (edge_lengths sqrt V F) p := by
  simp only [edge_lengths, permuteRows]
  congr 1
  funext i k
  split_ifs <;> rfl

theorem projArea_permuteRows (V : Mat K) (F : Mat Nat) (p : Equiv.Perm (Fin F.rows))
    (i : Nat) (hi : i < F.rows) (j k : Nat) :
    projArea V (permuteRows F p) i j k = projArea V F (p ⟨i, hi⟩) j k := by
  simp only [projArea, corner, coeff_permuteRows F p i hi]

theorem doublearea_of_dim3 (sqrt : K → K) (asserts : Bool) (V : Mat K) (F : Mat Nat)
    (hV : V.cols = 3) :
    doublearea sqrt asserts V F
      = if (asserts && decide (F.cols ≠ 3)) = true then .error .notTriangles
        else .ok (doublearea3 sqrt V F) := by
  simp only [doublearea, hV]

theorem doublearea_of_dim2 (sqrt : K → K) (asserts : Bool) (V : Mat K) (F : Mat Nat)
    (hV : V.cols = 2) :
    doublearea sqrt asserts V F
      = if (asserts && decide (F.cols ≠ 3)) = true then .error .notTriangles
        else .ok ((doublearea2 V F).map some) := by
  simp only [doublearea, hV]

theorem doublearea_of_other (sqrt : K → K) (asserts : Bool) (V : Mat K) (F : Mat Nat)
    (h2 : V.cols ≠ 2) (h3 : V.cols ≠ 3) :
    doublearea sqrt asserts V F
      = if (asserts && decide (F.cols ≠ 3)) = true then .error .notTriangles
        else doublearea_l sqrt asserts (edge_lengths sqrt V F) := by
  unfold doublearea
  split
  · rfl
  · split
    · next h => exact absurd h h3
    · next h => exact absurd h h2
    · rfl

/-- The dispatcher on a triangle table with rearranged rows. -/
theorem doublearea_permuteRows (sqrt : K → K) (V : Mat K) (F : Mat Nat)
    (p : Equiv.Perm (Fin F.rows)) :
    ∃ out outp, doublearea sqrt false V F = .ok out ∧ out.length = F.rows ∧
      doublearea sqrt false V (permuteRows F p) = .ok outp ∧ outp.length = F.rows ∧
      (∀ i : Fin F.rows, outp[(i : Nat)]? = out[(p i : Nat)]?) ∧
      (∀ o, doublearea sqrt true V F = .ok o →
        o = out ∧ doublearea sqrt true V (permuteRows F p) = .ok outp) := by
  have hr : (permuteRows F p).rows = F.rows := rfl
  have hcp : (permuteRows F p).cols = F.cols := rfl
  by_cases h3 : V.cols = 3
  · refine ⟨doublearea3 sqrt V F, doublearea3 sqrt V (permuteRows F p),
      by simp [doublearea_of_dim3 sqrt _ V _ h3], by simp [doublearea3_eq],
      by simp [doublearea_of_dim3 sqrt _ V _ h3], by simp [doublearea3_eq, hr], ?_, ?_⟩
    · intro i
      rw [doublearea3_eq, doublearea3_eq, hr, getElem?_map_range _ _ _ i.isLt,
        getElem?_map_range _ _ _ (p i).isLt]
      simp only [projArea_permuteRows V F p i i.isLt]
    · intro o ho
      rw [doublearea_of_dim3 sqrt _ V _ h3] at ho ⊢
      rw [hcp]
      split at ho
      · cases ho
      · next hc =>
        rw [if_neg hc]
        simp only [Except.ok.injEq] at ho
        exact ⟨ho.symm, rfl⟩
  · by_cases h2 : V.cols = 2
    · refine ⟨(doublearea2 V F).map some, (doublearea2 V (permuteRows F p)).map some,
        by simp [doublearea_of_dim2 sqrt _ V _ h2], by simp [doublearea2_eq],
        by simp [doublearea_of_dim2 sqrt _ V _ h2], by simp [doublearea2_eq, hr], ?_, ?_⟩
      · intro i
        rw [doublearea2_eq, doublearea2_eq, hr, List.map_map, List.map_map,
          getElem?_map_range _ _ _ i.isLt, getElem?_map_range _ _ _ (p i).isLt]
        simp only [Function.comp, projArea_permuteRows V F p i i.isLt]
      · intro o ho
        rw [doublearea_of_dim2 sqrt _ V _ h2] at ho ⊢
        rw [hcp]
        split at ho
        · cases ho
        · next hc =>
          rw [if_neg hc]
          simp only [Except.ok.injEq] at ho
          exact ⟨ho.symm, rfl⟩
    · obtain ⟨out, outp, e1, l1, e2, l2, hperm, hdbg⟩ :=
        doublearea_l_permuteRows sqrt (edge_lengths sqrt V F) p
      rw [← edge_lengths_permuteRows] at e2 hdbg
      refine ⟨out, outp, by simp [doublearea_of_other sqrt _ V _ h2 h3, e1], l1,
        by simp [doublearea_of_other sqrt _ V _ h2 h3, e2], l2, hperm, ?_⟩
      intro o ho
      rw [doublearea_of_other sqrt _ V _ h2 h3] at ho ⊢
      rw [hcp]
      split at ho
      · cases ho
      · next hc =>
        rw [if_neg hc]
        exact hdbg o ho

/-- Without assertions every entry of the dispatcher's output is a function of the
three corner indices of its own triangle. -/
theorem doublearea_release_entries (sqrt : K → K) (V : Mat K) :
    ∃ g : Nat → Nat → Nat → Option K, ∀ F : Mat Nat,
      doublearea sqrt false V F
        = .ok ((List.range F.rows).map
            (fun f => g (F.coeff f 0) (F.coeff f 1) (F.coeff f 2))) := by
  by_cases h3 : V.cols = 3
  · refine ⟨fun c0 c1 c2 => fsqrt sqrt
      (0 + projArea V (Mat.ofRows 0 3 [[c0, c1, c2]]) 0 0 1
          * projArea V (Mat.ofRows 0 3 [[c0, c1, c2]]) 0 0 1
        + projArea V (Mat.ofRows 0 3 [[c0, c1, c2]]) 0 1 2
          * projArea V (Mat.ofRows 0 3 [[c0, c1, c2]]) 0 1 2
        + projArea V (Mat.ofRows 0 3 [[c0, c1, c2]]) 0 2 0
          * projArea V (Mat.ofRows 0 3 [[c0, c1, c2]]) 0 2 0), fun F => ?_⟩
    rw [doublearea_of_dim3 sqrt _ V _ h3, doublearea3_eq]
    simp [projArea, corner, Mat.ofRows]
  · by_cases h2 : V.cols = 2
    · refine ⟨fun c0 c1 c2 => some (projArea V (Mat.ofRows 0 3 [[c0, c1, c2]]) 0 0 1),
        fun F => ?_⟩
      rw [doublearea_of_dim2 sqrt _ V _ h2, doublearea2_eq]
      simp [projArea, corner, Mat.ofRows]
    · refine ⟨fun c0 c1 c2 => kernelValue sqrt
        (sort (edge_lengths sqrt V (Mat.ofRows 0 3 [[c0, c1, c2]]))) 0, fun F => ?_⟩
      rw [doublearea_of_other sqrt _ V _ h2 h3]
      simp only [Bool.false_and, Bool.false_eq_true, if_false, doublearea_l_release]
      have hr : (edge_lengths sqrt V F).rows = F.rows := rfl
      rw [hr]
      refine congrArg Except.ok (List.map_congr_left (fun f _ => ?_))
      rw [kernelValue_sort sqrt _ rfl f, kernelValue_sort sqrt _ rfl 0]
      simp [edge_lengths, Mat.ofRows]

/-- Without assertions every entry of the kernel's output is a function of its own row
of lengths. -/
theorem doublearea_l_release_entries (sqrt : K → K) :
    ∃ g : List K → Option K, ∀ ul : Mat K,
      doublearea_l sqrt false ul = .ok ((List.range ul.rows).map (fun i => g (ul.row i))) :=
  ⟨fun row => (fsqrt sqrt (kahanArg ((row.insertionSort (fun x y => y ≤ x)).getD 0 0)
      ((row.insertionSort (fun x y => y ≤ x)).getD 1 0)
      ((row.insertionSort (fun x y => y ≤ x)).getD 2 0))).map (fun r => 2 * (1 / 4) * r),
    fun ul => doublearea_l_release sqrt ul⟩

/-- C12. Batch property: the output has exactly one entry per row of the triangle table
(or of the edge-length table); entry `f` is a function of row `f` alone; and for every
permutation `p` of the rows, the call on the permuted table returns the original output
permuted by `p`.  A call with assertions enabled that completes returns the same output,
and then the call on the permuted table completes too. -/
theorem doublearea_batch (sqrt : K → K) :
    (∀ V : Mat K, ∃ g : Nat → Nat → Nat → Option K, ∀ F : Mat Nat,
      doublearea sqrt false V F
        = .ok ((List.range F.rows).map
            (fun f => g (F.coeff f 0) (F.coeff f 1) (F.coeff f 2))) ∧
      ∀ p : Equiv.Perm (Fin F.rows),
        ∃ out outp, doublearea sqrt false V F = .ok out ∧ out.length = F.rows ∧
          doublearea sqrt false V (permuteRows F p) = .ok outp ∧ outp.length = F.rows ∧
          (∀ i : Fin F.rows, outp[(i : Nat)]? = out[(p i : Nat)]?) ∧
          (∀ o, doublearea sqrt true V F = .ok o →
            o = out ∧ doublearea sqrt true V (permuteRows F p) = .ok outp)) ∧
    (∃ g : List K → Option K, ∀ ul : Mat K,
      doublearea_l sqrt false ul
        = .ok ((List.range ul.rows).map (fun i => g (ul.row i))) ∧
      ∀ p : Equiv.Perm (Fin ul.rows),
        ∃ out outp, doublearea_l sqrt false ul = .ok out ∧ out.length = ul.rows ∧
          doublearea_l sqrt false (permuteRows ul p) = .ok outp ∧ outp.length = ul.rows ∧
          (∀ i : Fin ul.rows, outp[(i : Nat)]? = out[(p i : Nat)]?) ∧
          (∀ o, doublearea_l sqrt true ul = .ok o →
            o = out ∧ doublearea_l sqrt true (permuteRows ul p) = .ok outp)) := by
  refine ⟨fun V => ?_, ?_⟩
  · obtain ⟨g, hg⟩ := doublearea_release_entries sqrt V
    exact ⟨g, fun F => ⟨hg F, fun p => doublearea_permuteRows sqrt V F p⟩⟩
  · obtain ⟨g, hg⟩ := doublearea_l_release_entries sqrt
    exact ⟨g, fun ul => ⟨hg ul, fun p => doublearea_l_permuteRows sqrt ul p⟩⟩

/-- Witness of C12: two triangles of a square, exchanged. -/
theorem doublearea_batch_witness :
    ∃ out outp, doublearea Real.sqrt false
        (Mat.ofRows 0 2 [[0, 0], [1, 0], [0, 1], [1, 1]])
        (Mat.ofRows 0 3 [[0, 1, 2], [1, 2, 3]]) = .ok out ∧ out.length = 2 ∧
      doublearea Real.sqrt false (Mat.ofRows 0 2 [[0, 0], [1, 0], [0, 1], [1, 1]])
        (permuteRows (Mat.ofRows 0 3 [[0, 1, 2], [1, 2, 3]])
          (Equiv.swap (0 : Fin 2) (1 : Fin 2))) = .ok outp ∧
      outp[0]? = out[1]? := by
  obtain ⟨_, hg⟩ := (doublearea_batch Real.sqrt).1
    (Mat.ofRows 0 2 [[0, 0], [1, 0], [0, 1], [1, 1]])
  obtain ⟨out, outp, h1, h2, h3, _, h5, _⟩ :=
    (hg (Mat.ofRows 0 3 [[0, 1, 2], [1, 2, 3]])).2 (Equiv.swap (0 : Fin 2) (1 : Fin 2))
  have h := h5 (0 : Fin 2)
  rw [Equiv.swap_apply_left] at h
  exact ⟨out, outp, h1, h2, h3, h⟩

end Batch

/-! ## Double arithmetic: where the computed values leave the exact ones -/

section DoubleArithmetic

set_option exponentiation.threshold 9000
set_option maxRecDepth 100000

/-- Checks of the rounding on known values: `2^53 + 1` is a tie and rounds to the even
neighbour `2^53`, `2^53 + 3` rounds to `2^53 + 4`, `sqrt 2` is `0x3FF6A09E667F3BCD`,
`1.5 * 2^-1074` rounds to `2 * 2^-1074`, and `2^1024` overflows. -/
theorem F64.round_examples :
    F64.add (F64.ofInt (2 ^ 53)) (F64.ofInt 1) = F64.ofInt (2 ^ 53) ∧
      F64.add (F64.ofInt (2 ^ 53)) (F64.ofInt 3) = F64.ofInt (2 ^ 53 + 4) ∧
      F64.sqrt (F64.ofInt 2) = F64.fin false 6369051672525773 (-52) ∧
      F64.scaled 3 (-1075) = F64.fin false 2 (-1074) ∧
      F64.scaled 1 1024 = F64.inf false ∧
      F64.mul (F64.ofInt 2) (F64.scaled 1 (-2)) = F64.scaled 1 (-1) :=
  ⟨rfl, rfl, rfl, rfl, rfl, rfl⟩

/-- One step of `F64.ilog2`: if `p.1 = m / 2^p.2` is between 1 and `2^(k+k)`, the step
with `k` leaves a pair with the same property below `2^k`. -/
theorem F64.ilog2_step (m k : Nat) (p : Nat × Nat) (h1 : p.1 = m / 2 ^ p.2) (h2 : 1 ≤ p.1)
    (h3 : p.1 < 2 ^ (k + k)) :
    (if 2 ^ k ≤ p.1 then (p.1 / 2 ^ k, p.2 + k) else p).1
        = m / 2 ^ (if 2 ^ k ≤ p.1 then (p.1 / 2 ^ k, p.2 + k) else p).2 ∧
      1 ≤ (if 2 ^ k ≤ p.1 then (p.1 / 2 ^ k, p.2 + k) else p).1 ∧
      (if 2 ^ k ≤ p.1 then (p.1 / 2 ^ k, p.2 + k) else p).1 < 2 ^ k := by
  have hk : 0 < 2 ^ k := Nat.two_pow_pos k
  rw [pow_add] at h3
  split_ifs with h
  · refine ⟨?_, ?_, ?_⟩
    · show p.1 / 2 ^ k = m / 2 ^ (p.2 + k)
      rw [h1, Nat.div_div_eq_div_mul, pow_add]
    · exact Nat.div_pos h hk
    · exact Nat.div_lt_of_lt_mul h3
  · exact ⟨h1, h2, not_le.mp h⟩

/-- The steps of `F64.ilog2` along a list of exponents each half of the one before. -/
theorem F64.ilog2_fold (m : Nat) : ∀ (ks : List Nat) (B : Nat) (p : Nat × Nat),
    List.Chain (fun a b => a = b + b) B ks → p.1 = m / 2 ^ p.2 → 1 ≤ p.1 → p.1 < 2 ^ B →
    (ks.foldl (fun (p : Nat × Nat) k =>
        if 2 ^ k ≤ p.1 then (p.1 / 2 ^ k, p.2 + k) else p) p).1
      = m / 2 ^ (ks.foldl (fun (p : Nat × Nat) k =>
        if 2 ^ k ≤ p.1 then (p.1 / 2 ^ k, p.2 + k) else p) p).2 ∧
    1 ≤ (ks.foldl (fun (p : Nat × Nat) k =>
        if 2 ^ k ≤ p.1 then (p.1 / 2 ^ k, p.2 + k) else p) p).1 ∧
    (ks.foldl (fun (p : Nat × Nat) k =>
        if 2 ^ k ≤ p.1 then (p.1 / 2 ^ k, p.2 + k) else p) p).1 < 2 ^ ks.getLastD B
  | [], B, p, _, h1, h2, h3 => ⟨h1, h2, h3⟩
  | k :: ks, B, p, hc, h1, h2, h3 => by
    rw [List.chain_cons] at hc
    obtain ⟨hB, hc⟩ := hc
    rw [hB] at h3
    obtain ⟨e1, e2, e3⟩ := F64.ilog2_step m k p h1 h2 h3
    have h := F64.ilog2_fold m ks k _ hc e1 e2 e3
    rw [List.foldl_cons, List.getLastD_cons]
    exact h

/-- The function `F64.ilog2` gives the position of the leading bit: for `0 < m < 2^8192`,
`2^(ilog2 m) ≤ m < 2^(ilog2 m + 1)`. -/
theorem F64.ilog2_spec (m : Nat) (h0 : 0 < m) (hb : m < 2 ^ 8192) :
    2 ^ F64.ilog2 m ≤ m ∧ m < 2 ^ (F64.ilog2 m + 1) := by
  have hc : List.Chain (fun a b => a = b + b) 8192
      [4096, 2048, 1024, 512, 256, 128, 64, 32, 16, 8, 4, 2, 1] :=
    .cons rfl (.cons rfl (.cons rfl (.cons rfl (.cons rfl (.cons rfl (.cons rfl
      (.cons rfl (.cons rfl (.cons rfl (.cons rfl (.cons rfl (.cons rfl .nil))))))))))))
  have key := F64.ilog2_fold m [4096, 2048, 1024, 512, 256, 128, 64, 32, 16, 8, 4, 2, 1]
    8192 (m, 0) hc (by simp) h0 hb
  have hl : ([4096, 2048, 1024, 512, 256, 128, 64, 32, 16, 8, 4, 2, 1] : List Nat).getLastD
      8192 = 1 := rfl
  rw [hl] at key
  have key2 : ∃ x, x = m / 2 ^ F64.ilog2 m ∧ 1 ≤ x ∧ x < 2 ^ 1 := ⟨_, key⟩
  obtain ⟨x, e, h1, h2⟩ := key2
  have hq : m / 2 ^ F64.ilog2 m = 1 := by
    rw [← e]
    simp only [pow_one] at h2
    omega
  have hp : 0 < 2 ^ F64.ilog2 m := Nat.two_pow_pos _
  constructor
  · by_contra hc2
    rw [Nat.div_eq_of_lt (not_le.mp hc2)] at hq
    cases hq
  · have h3 : m / 2 ^ F64.ilog2 m < 2 := by
      rw [hq]
      decide
    have h4 := (Nat.div_lt_iff_lt_mul hp).mp h3
    rw [pow_succ]
    linarith

/-- Invariant of the bit by bit square root. -/
theorem F64.isqrtAux_spec (M : Nat) : ∀ (i r : Nat), r * r ≤ M →
    M < (r + 2 ^ i) * (r + 2 ^ i) →
    F64.isqrtAux M i r * F64.isqrtAux M i r ≤ M ∧
      M < (F64.isqrtAux M i r + 1) * (F64.isqrtAux M i r + 1)
  | 0, r, h1, h2 => by
    simp only [F64.isqrtAux]
    exact ⟨h1, by simpa using h2⟩
  | i + 1, r, h1, h2 => by
    simp only [F64.isqrtAux]
    split_ifs with h
    · apply F64.isqrtAux_spec M i _ h
      have e : r + 2 ^ i + 2 ^ i = r + 2 ^ (i + 1) := by
        rw [pow_succ]
        ring
      rw [e]
      exact h2
    · exact F64.isqrtAux_spec M i r h1 (not_le.mp h)

/-- The function `F64.isqrt` is the integer square root: for `M < 2^8192`,
`isqrt M ^ 2 ≤ M < (isqrt M + 1) ^ 2`. -/
theorem F64.isqrt_spec (M : Nat) (hb : M < 2 ^ 8192) :
    F64.isqrt M * F64.isqrt M ≤ M ∧ M < (F64.isqrt M + 1) * (F64.isqrt M + 1) := by
  apply F64.isqrtAux_spec M _ 0 (Nat.zero_le _)
  rw [Nat.zero_add, ← pow_add]
  rcases Nat.eq_zero_or_pos M with h0 | h0
  · rw [h0]
    exact Nat.two_pow_pos _
  · have h := (F64.ilog2_spec M h0 hb).2
    refine lt_of_lt_of_le h (Nat.pow_le_pow_right (by decide) ?_)
    omega

/-- The `double` values written with `F64.scaled` and `F64.ofInt` below are canonical. -/
theorem F64.literals_canonical :
    [F64.zero, F64.ofInt 1, F64.ofInt 3, F64.ofInt 4, F64.ofInt 5, F64.scaled 1 (-2),
      F64.scaled 3 (-2), F64.scaled 5 (-58), F64.scaled 15 (-58), F64.scaled 1 (-53),
      F64.scaled 1 (-60), F64.scaled 3 (-300), F64.scaled 4 (-300), F64.scaled 5 (-300),
      F64.scaled 5 (-333), F64.scaled 1 (-333), F64.scaled 1 300, F64.scaled 1 600,
      F64.scaled 1 601, F64.scaled (-1) 600, F64.scaled 3 1022, F64.scaled 1 1022,
      F64.scaled 1 1023, F64.fin true 0 (-1074)].all F64.canonical = true :=
  rfl

/-- Without assertions the kernel in `double` arithmetic returns one value per row. -/
theorem doublearea_l_f64_release (ul : Mat F64) :
    doublearea_l_f64 false ul
      = .ok ((List.range ul.rows).map (kernelValue_f64 (sort_f64 ul))) := by
  simp only [doublearea_l_f64, Bool.false_and, Bool.false_eq_true, if_false]
  exact forRows_of_ok _ _ _ (fun i _ => by simp [kernelRow_f64])

/-- With assertions a completed call of the kernel in `double` arithmetic returns the
same values. -/
theorem doublearea_l_f64_debug_ok (ul : Mat F64) (out : List F64)
    (h : doublearea_l_f64 true ul = .ok out) :
    out = (List.range ul.rows).map (kernelValue_f64 (sort_f64 ul)) := by
  simp only [doublearea_l_f64, Bool.true_and] at h
  split at h
  · cases h
  · obtain ⟨hl, hk⟩ := forRows_ok_inv _ _ _ h
    apply List.ext_getElem?
    intro k
    by_cases hklt : k < ul.rows
    · obtain ⟨v, hv, hb⟩ := hk k k (by simp [hklt])
      rw [hv, getElem?_map_range _ _ _ hklt]
      simp only [kernelRow_f64, Bool.true_and] at hb
      split at hb
      · cases hb
      · split at hb
        · cases hb
        · simp only [Except.ok.injEq] at hb
          rw [hb]
    · have h1 : out.length ≤ k := by
        rw [hl, List.length_range]
        omega
      have h2 : ((List.range ul.rows).map (kernelValue_f64 (sort_f64 ul))).length ≤ k := by
        rw [List.length_map, List.length_range]
        omega
      rw [List.getElem?_eq_none h1, List.getElem?_eq_none h2]

/-- The sorted row of a table of three `double` columns: a rearrangement of the row, in
descending order of the keys. -/
theorem sort_f64_row3 (ul : Mat F64) (h : ul.cols = 3) (i : Nat) :
    [(sort_f64 ul).coeff i 0, (sort_f64 ul).coeff i 1, (sort_f64 ul).coeff i 2].Perm
        [ul.coeff i 0, ul.coeff i 1, ul.coeff i 2]
      ∧ F64.key ((sort_f64 ul).coeff i 1) ≤ F64.key ((sort_f64 ul).coeff i 0)
      ∧ F64.key ((sort_f64 ul).coeff i 2) ≤ F64.key ((sort_f64 ul).coeff i 1) := by
  haveI : IsTotal F64 (fun x y => F64.key y ≤ F64.key x) := ⟨fun a b => le_total _ _⟩
  haveI : IsTrans F64 (fun x y => F64.key y ≤ F64.key x) :=
    ⟨fun a b c hab hbc => le_trans hbc hab⟩
  obtain ⟨s, hdef⟩ : ∃ s, s = (ul.row i).insertionSort (fun x y => F64.key y ≤ F64.key x) :=
    ⟨_, rfl⟩
  have hp : s.Perm [ul.coeff i 0, ul.coeff i 1, ul.coeff i 2] := by
    rw [hdef, ← row_of_cols3 ul h i]
    exact List.perm_insertionSort _ _
  have hs : s.Sorted (fun x y => F64.key y ≤ F64.key x) := by
    rw [hdef]
    exact List.sorted_insertionSort _ _
  have hl : s.length = 3 := by simpa using hp.length_eq
  have hco : ∀ k, (sort_f64 ul).coeff i k = s.getD k F64.zero := fun k => by
    rw [hdef]
    rfl
  rw [hco 0, hco 1, hco 2]
  clear hdef hco
  rcases s with _ | ⟨a, _ | ⟨b, _ | ⟨c, _ | ⟨d, t⟩⟩⟩⟩
  · simp at hl
  · simp at hl
  · simp at hl
  · simp only [List.getD_cons_zero, List.getD_cons_succ]
    simp only [List.Sorted, List.pairwise_cons] at hs
    exact ⟨hp, hs.1 b (by simp), hs.2.1 c (by simp)⟩
  · simp at hl

/-- Counterexample to C1 as stated.  On a table whose coordinates are `2^601` and `2^600`
both products of line 51 overflow and the entry is `inf - inf`, NaN, while the cross
product of these coordinates is `3 * 2^1200`.  On the second table nothing overflows,
but the differences and the products are rounded: the entry is `2^-53`, while the cross
product of these coordinates is 0. -/
theorem doublearea_f64_dim2_not_cross :
    doublearea_f64 false
        (Mat.ofRows F64.zero 2
          [[F64.scaled 1 601, F64.scaled 1 600],
           [F64.scaled 1 600, F64.scaled 1 601],
           [F64.zero, F64.zero]])
        (Mat.ofRows 0 3 [[0, 1, 2]]) = .ok [F64.nan] ∧
      [[F64.scaled 1 601, F64.scaled 1 600],
         [F64.scaled 1 600, F64.scaled 1 601],
         [F64.zero, F64.zero]].map (List.map F64.toRat)
        = [[2 ^ 601, 2 ^ 600], [2 ^ 600, 2 ^ 601], [0, 0]] ∧
      doublearea (fun x : ℚ => x) false
        (Mat.ofRows (0 : ℚ) 2
          [[2 ^ 601, 2 ^ 600], [2 ^ 600, 2 ^ 601], [0, 0]])
        (Mat.ofRows 0 3 [[0, 1, 2]]) = .ok [some (3 * 2 ^ 1200)] ∧
      doublearea_f64 false
        (Mat.ofRows F64.zero 2
          [[F64.ofInt 1, F64.ofInt 3],
           [F64.scaled 1 (-2), F64.scaled 3 (-2)],
           [F64.scaled 5 (-58), F64.scaled 15 (-58)]])
        (Mat.ofRows 0 3 [[0, 1, 2]]) = .ok [F64.scaled 1 (-53)] ∧
      [[F64.ofInt 1, F64.ofInt 3],
         [F64.scaled 1 (-2), F64.scaled 3 (-2)],
         [F64.scaled 5 (-58), F64.scaled 15 (-58)]].map (List.map F64.toRat)
        = [[1, 3], [1 / 2 ^ 2, 3 / 2 ^ 2], [5 / 2 ^ 58, 15 / 2 ^ 58]] ∧
      F64.toRat (F64.scaled 1 (-53)) = 1 / 2 ^ 53 ∧
      doublearea (fun x : ℚ => x) false
        (Mat.ofRows (0 : ℚ) 2
          [[1, 3], [1 / 2 ^ 2, 3 / 2 ^ 2], [5 / 2 ^ 58, 15 / 2 ^ 58]])
        (Mat.ofRows 0 3 [[0, 1, 2]]) = .ok [some 0] := by
  refine ⟨rfl, ?_, ?_, rfl, ?_, ?_, ?_⟩
  · have h0 : F64.scaled 1 600 = F64.fin false 4503599627370496 (548) := rfl
    have h1 : F64.scaled 1 601 = F64.fin false 4503599627370496 (549) := rfl
    simp only [h0, h1, F64.zero, F64.toRat, List.map]
    norm_num
  · rw [doublearea_of_dim2 _ _ _ _ rfl, doublearea2_eq]
    have h1 : List.range 1 = [0] := rfl
    have hr : (Mat.ofRows 0 3 [[0, 1, 2]]).rows = 1 := rfl
    rw [hr, h1]
    simp [projArea, cross2, corner, Mat.ofRows]
    norm_num
  · have h0 : F64.scaled 1 (-2) = F64.fin false 4503599627370496 (-54) := rfl
    have h1 : F64.ofInt 1 = F64.fin false 4503599627370496 (-52) := rfl
    have h2 : F64.scaled 3 (-2) = F64.fin false 6755399441055744 (-53) := rfl
    have h3 : F64.ofInt 3 = F64.fin false 6755399441055744 (-51) := rfl
    have h4 : F64.scaled 5 (-58) = F64.fin false 5629499534213120 (-108) := rfl
    have h5 : F64.scaled 15 (-58) = F64.fin false 8444249301319680 (-107) := rfl
    simp only [h0, h1, h2, h3, h4, h5, F64.zero, F64.toRat, List.map]
    norm_num
  · have h0 : F64.scaled 1 (-53) = F64.fin false 4503599627370496 (-105) := rfl
    simp only [h0, F64.zero, F64.toRat, List.map]
    norm_num
  · rw [doublearea_of_dim2 _ _ _ _ rfl, doublearea2_eq]
    have h1 : List.range 1 = [0] := rfl
    have hr : (Mat.ofRows 0 3 [[0, 1, 2]]).rows = 1 := rfl
    rw [hr, h1]
    simp [projArea, cross2, corner, Mat.ofRows]
    norm_num

/-- Counterexample to C2 as stated.  The projected area onto (x,y) is `2^600`; its
square overflows, so the entry is `sqrt(inf) = +inf`, while the norm of the cross
product of these coordinates is `2^600`. -/
theorem doublearea_f64_dim3_overflow :
    doublearea_f64 false
        (Mat.ofRows F64.zero 3
          [[F64.zero, F64.zero, F64.zero],
           [F64.scaled 1 300, F64.zero, F64.zero],
           [F64.zero, F64.scaled 1 300, F64.zero]])
        (Mat.ofRows 0 3 [[0, 1, 2]]) = .ok [F64.inf false] ∧
      [[F64.zero, F64.zero, F64.zero],
         [F64.scaled 1 300, F64.zero, F64.zero],
         [F64.zero, F64.scaled 1 300, F64.zero]].map (List.map F64.toRat)
        = [[0, 0, 0], [2 ^ 300, 0, 0], [0, 2 ^ 300, 0]] ∧
      doublearea Real.sqrt false
        (Mat.ofRows (0 : ℝ) 3
          [[0, 0, 0], [2 ^ 300, 0, 0], [0, 2 ^ 300, 0]])
        (Mat.ofRows 0 3 [[0, 1, 2]]) = .ok [some (2 ^ 600)] := by
  refine ⟨rfl, ?_, ?_⟩
  · have h0 : F64.scaled 1 300 = F64.fin false 4503599627370496 (248) := rfl
    simp only [h0, F64.zero, F64.toRat, List.map]
    norm_num
  · rw [doublearea_of_dim3 _ _ _ _ rfl, doublearea3_eq]
    have h1 : List.range 1 = [0] := rfl
    have hr : (Mat.ofRows 0 3 [[0, 1, 2]]).rows = 1 := rfl
    rw [hr, h1]
    have e01 : projArea (Mat.ofRows (0 : ℝ) 3
          [[0, 0, 0], [2 ^ 300, 0, 0], [0, 2 ^ 300, 0]]) (Mat.ofRows 0 3 [[0, 1, 2]]) 0 0 1 = 2 ^ 600 := by
      simp [projArea, cross2, corner, Mat.ofRows]
      norm_num
    have e12 : projArea (Mat.ofRows (0 : ℝ) 3
          [[0, 0, 0], [2 ^ 300, 0, 0], [0, 2 ^ 300, 0]]) (Mat.ofRows 0 3 [[0, 1, 2]]) 0 1 2 = 0 := by
      simp [projArea, cross2, corner, Mat.ofRows]
    have e20 : projArea (Mat.ofRows (0 : ℝ) 3
          [[0, 0, 0], [2 ^ 300, 0, 0], [0, 2 ^ 300, 0]]) (Mat.ofRows 0 3 [[0, 1, 2]]) 0 2 0 = 0 := by
      simp [projArea, cross2, corner, Mat.ofRows]
    simp only [e01, e12, e20, List.map_cons, List.map_nil, Bool.false_and,
      Bool.false_eq_true, if_false]
    have hn : ¬ ((0 : ℝ) + 2 ^ 600 * 2 ^ 600 + 0 * 0 + 0 * 0 < 0) :=
      not_lt.mpr (by positivity)
    simp only [fsqrt, if_neg hn]
    have hs : Real.sqrt (0 + 2 ^ 600 * 2 ^ 600 + 0 * 0 + 0 * 0) = 2 ^ 600 := by
      rw [show (0 : ℝ) + 2 ^ 600 * 2 ^ 600 + 0 * 0 + 0 * 0 = (2 ^ 600) ^ 2 by ring]
      exact Real.sqrt_sq (by positivity)
    rw [hs]

/-- Counterexample to C3 as stated.  For the row `(3, 4, 5) * 2^-300` the radicand
`576 * 2^-1200` is below the smallest positive `double` and is rounded to 0, so the entry
is 0, while the value of the formula for these lengths is `12 * 2^-600`. -/
theorem doublearea_l_f64_underflow :
    doublearea_l_f64 false
        (Mat.ofRows F64.zero 3
          [[F64.scaled 3 (-300), F64.scaled 4 (-300), F64.scaled 5 (-300)]]) = .ok [F64.zero] ∧
      [[F64.scaled 3 (-300), F64.scaled 4 (-300), F64.scaled 5 (-300)]].map (List.map F64.toRat)
        = [[3 / 2 ^ 300, 4 / 2 ^ 300, 5 / 2 ^ 300]] ∧
      doublearea_l Real.sqrt false
        (Mat.ofRows (0 : ℝ) 3
          [[3 / 2 ^ 300, 4 / 2 ^ 300, 5 / 2 ^ 300]]) = .ok [some (12 / 2 ^ 600)] := by
  refine ⟨rfl, ?_, ?_⟩
  · have h0 : F64.scaled 3 (-300) = F64.fin false 6755399441055744 (-351) := rfl
    have h1 : F64.scaled 4 (-300) = F64.fin false 4503599627370496 (-350) := rfl
    have h2 : F64.scaled 5 (-300) = F64.fin false 5629499534213120 (-350) := rfl
    simp only [h0, h1, h2, F64.zero, F64.toRat, List.map]
    norm_num
  · rw [doublearea_l_release]
    have h1 : List.range 1 = [0] := rfl
    have hr : (Mat.ofRows (0 : ℝ) 3
        [[3 / 2 ^ 300, 4 / 2 ^ 300, 5 / 2 ^ 300]]).rows = 1 := rfl
    rw [hr, h1, List.map_cons, List.map_nil, kernelValue_sort _ _ rfl]
    have hk : kahanArg ((3 : ℝ) / 2 ^ 300) (4 / 2 ^ 300) (5 / 2 ^ 300)
        = (24 / 2 ^ 600) ^ 2 := by
      simp only [kahanArg]
      ring
    have hc : ∀ k, (Mat.ofRows (0 : ℝ) 3
        [[3 / 2 ^ 300, 4 / 2 ^ 300, 5 / 2 ^ 300]]).coeff 0 k
        = [(3 : ℝ) / 2 ^ 300, 4 / 2 ^ 300, 5 / 2 ^ 300].getD k 0 := fun k => rfl
    rw [hc 0, hc 1, hc 2]
    simp only [List.getD_cons_zero, List.getD_cons_succ]
    rw [hk]
    have hn : ¬ (((24 : ℝ) / 2 ^ 600) ^ 2 < 0) := not_lt.mpr (by positivity)
    simp only [fsqrt, if_neg hn, Option.map_some']
    rw [Real.sqrt_sq (by positivity)]
    congr 3
    ring

/-- C3, amended.  Entry `i` of `doublearea(l)` is the expression
`0.5 * sqrt((a+(b+c)) * (c-(a-b)) * (c+(a-b)) * (a+(b-c)))` evaluated in the scalar
arithmetic of the call on row `i` sorted into descending order, `(a, b, c)`: in `double`
arithmetic operation by operation, every result rounded (first part; `2.0*0.25` is
exactly `0.5`, and NaN is placed last by the sort of the model); in exact arithmetic
the exact value, NaN at a negative radicand (second part).  A call with assertions
enabled that completes returns the same entry. -/
theorem doublearea_l_sorted_formula :
    (∀ (ul : Mat F64) (i : Nat), ul.cols = 3 → i < ul.rows →
      ∃ a b c : F64, [a, b, c].Perm [ul.coeff i 0, ul.coeff i 1, ul.coeff i 2] ∧
        F64.key b ≤ F64.key a ∧ F64.key c ≤ F64.key b ∧
        ∃ out, doublearea_l_f64 false ul = .ok out ∧ out.length = ul.rows ∧
          out[i]? = some (F64.mul (F64.scaled 1 (-1)) (F64.sqrt
            (F64.mul (F64.mul (F64.mul (F64.add a (F64.add b c)) (F64.sub c (F64.sub a b)))
              (F64.add c (F64.sub a b))) (F64.add a (F64.sub b c))))) ∧
          ∀ out2, doublearea_l_f64 true ul = .ok out2 → out2[i]? = out[i]?) ∧
    (∀ (K : Type) [LinearOrderedField K] (sqrt : K → K) (ul : Mat K) (i : Nat),
      ul.cols = 3 → i < ul.rows →
      ∃ a b c : K, [a, b, c].Perm [ul.coeff i 0, ul.coeff i 1, ul.coeff i 2] ∧
        b ≤ a ∧ c ≤ b ∧
        ∃ out, doublearea_l sqrt false ul = .ok out ∧ out.length = ul.rows ∧
          out[i]? = some ((fsqrt sqrt
              ((a + (b + c)) * (c - (a - b)) * (c + (a - b)) * (a + (b - c)))).map
                (fun r => 1 / 2 * r)) ∧
          ∀ out2, doublearea_l sqrt true ul = .ok out2 → out2[i]? = out[i]?) := by
  refine ⟨fun ul i h hi => ?_, fun K _ sqrt ul i h hi => ?_⟩
  · obtain ⟨hp, hab, hbc⟩ := sort_f64_row3 ul h i
    refine ⟨_, _, _, hp, hab, hbc, _, doublearea_l_f64_release ul, by simp, ?_, ?_⟩
    · rw [getElem?_map_range _ _ _ hi]
      have hhalf : F64.mul (F64.ofInt 2) (F64.scaled 1 (-2)) = F64.scaled 1 (-1) := rfl
      simp only [kernelValue_f64, kahanArg_f64, hhalf]
    · intro out2 h2
      rw [doublearea_l_f64_debug_ok ul out2 h2]
  · obtain ⟨hp, hab, hbc⟩ := sort_row3 ul h i
    refine ⟨_, _, _, hp, hab, hbc, _, doublearea_l_release sqrt ul, by simp, ?_, ?_⟩
    · rw [getElem?_map_range _ _ _ hi]
      simp only [kernelValue, kahanArg]
      congr 2
      funext r
      ring
    · intro out2 h2
      rw [doublearea_l_debug_ok sqrt ul out2 h2]

/-- Witness of C3, amended: the row `(3, 4, 5)` in `double` arithmetic. -/
theorem doublearea_l_sorted_formula_witness :
    ∃ a b c : F64, [a, b, c].Perm [F64.ofInt 3, F64.ofInt 4, F64.ofInt 5] ∧
      F64.key b ≤ F64.key a ∧ F64.key c ≤ F64.key b ∧
      ∃ out, doublearea_l_f64 false
          (Mat.ofRows F64.zero 3 [[F64.ofInt 3, F64.ofInt 4, F64.ofInt 5]]) = .ok out ∧
        out[0]? = some (F64.mul (F64.scaled 1 (-1)) (F64.sqrt
          (F64.mul (F64.mul (F64.mul (F64.add a (F64.add b c)) (F64.sub c (F64.sub a b)))
            (F64.add c (F64.sub a b))) (F64.add a (F64.sub b c))))) := by
  obtain ⟨a, b, c, hp, hab, hbc, out, h1, _, h3, _⟩ := doublearea_l_sorted_formula.1
    (Mat.ofRows F64.zero 3 [[F64.ofInt 3, F64.ofInt 4, F64.ofInt 5]]) 0 rfl (by decide)
  exact ⟨a, b, c, hp, hab, hbc, out, h1, h3⟩

/-- Counterexample to C4 as stated.  For the lengths `(1, 1, 2^-60)`, which satisfy the
triangle inequality, Kahan's formula gives `2^-60`, while the naive formula of the
comment gives 0: the semiperimeter `(1 + 1 + 2^-60) * 0.5` is rounded to 1 and
`s - l0` is 0.  For the lengths `(3, 4, 5) * 2^-300` the kernel returns 0, while
`2 * sqrt(s*(s-l0)*(s-l1)*(s-l2))` is `12 * 2^-600`. -/
theorem doublearea_l_f64_ne_heron :
    doublearea_l_f64 false
        (Mat.ofRows F64.zero 3
          [[F64.ofInt 1, F64.ofInt 1, F64.scaled 1 (-60)]]) = .ok [F64.scaled 1 (-60)] ∧
      heronDoubleArea_f64 (F64.ofInt 1) (F64.ofInt 1) (F64.scaled 1 (-60)) = F64.zero ∧
      F64.scaled 1 (-60) ≠ F64.zero ∧
      [[F64.ofInt 1, F64.ofInt 1, F64.scaled 1 (-60)]].map (List.map F64.toRat)
        = [[1, 1, 1 / 2 ^ 60]] ∧
      (1 : ℚ) ≤ 1 + 1 / 2 ^ 60 ∧ (1 : ℚ) / 2 ^ 60 ≤ 1 + 1 ∧
      doublearea_l_f64 false
        (Mat.ofRows F64.zero 3
          [[F64.scaled 3 (-300), F64.scaled 4 (-300), F64.scaled 5 (-300)]]) = .ok [F64.zero] ∧
      [[F64.scaled 3 (-300), F64.scaled 4 (-300), F64.scaled 5 (-300)]].map (List.map F64.toRat)
        = [[3 / 2 ^ 300, 4 / 2 ^ 300, 5 / 2 ^ 300]] ∧
      heronDoubleArea Real.sqrt (3 / 2 ^ 300) (4 / 2 ^ 300) (5 / 2 ^ 300) = 12 / 2 ^ 600 := by
  refine ⟨rfl, rfl, by decide, ?_, by norm_num, by norm_num, rfl, ?_, ?_⟩
  · have h0 : F64.scaled 1 (-60) = F64.fin false 4503599627370496 (-112) := rfl
    have h1 : F64.ofInt 1 = F64.fin false 4503599627370496 (-52) := rfl
    simp only [h0, h1, F64.zero, F64.toRat, List.map]
    norm_num
  · have h0 : F64.scaled 3 (-300) = F64.fin false 6755399441055744 (-351) := rfl
    have h1 : F64.scaled 4 (-300) = F64.fin false 4503599627370496 (-350) := rfl
    have h2 : F64.scaled 5 (-300) = F64.fin false 5629499534213120 (-350) := rfl
    simp only [h0, h1, h2, F64.zero, F64.toRat, List.map]
    norm_num
  · have hk : (3 / 2 ^ 300 + 4 / 2 ^ 300 + 5 / 2 ^ 300) * (1 / 2)
        * ((3 / 2 ^ 300 + 4 / 2 ^ 300 + 5 / 2 ^ 300) * (1 / 2) - 3 / 2 ^ 300)
        * ((3 / 2 ^ 300 + 4 / 2 ^ 300 + 5 / 2 ^ 300) * (1 / 2) - 4 / 2 ^ 300)
        * ((3 / 2 ^ 300 + 4 / 2 ^ 300 + 5 / 2 ^ 300) * (1 / 2) - 5 / 2 ^ 300)
        = ((6 : ℝ) / 2 ^ 600) ^ 2 := by ring
    simp only [heronDoubleArea]
    rw [hk, Real.sqrt_sq (by positivity)]
    ring

/-- Counterexample to C5 as stated.  Without assertions the row `(1, 1, 5)` is not
reported: its result is NaN.  For the row `(5, 1, 1) * 2^-333`, which also violates the
triangle inequality, the radicand `-525 * 2^-1332` is rounded to `-0` and
`sqrt(-0) = -0`: with assertions enabled both assertions pass and nothing is reported. -/
theorem doublearea_l_f64_violation :
    doublearea_l_f64 false
        (Mat.ofRows F64.zero 3
          [[F64.ofInt 1, F64.ofInt 1, F64.ofInt 5]]) = .ok [F64.nan] ∧
      doublearea_l_f64 true
        (Mat.ofRows F64.zero 3
          [[F64.scaled 5 (-333), F64.scaled 1 (-333), F64.scaled 1 (-333)]])
          = .ok [F64.fin true 0 (-1074)] ∧
      doublearea_l_f64 false
        (Mat.ofRows F64.zero 3
          [[F64.scaled 5 (-333), F64.scaled 1 (-333), F64.scaled 1 (-333)]])
          = .ok [F64.fin true 0 (-1074)] ∧
      F64.isNaN (F64.fin true 0 (-1074)) = false ∧
      [[F64.scaled 5 (-333), F64.scaled 1 (-333), F64.scaled 1 (-333)]].map (List.map F64.toRat)
        = [[5 / 2 ^ 333, 1 / 2 ^ 333, 1 / 2 ^ 333]] ∧
      (1 : ℚ) / 2 ^ 333 + 1 / 2 ^ 333 < 5 / 2 ^ 333 := by
  refine ⟨rfl, rfl, rfl, rfl, ?_, by norm_num⟩
  have h0 : F64.scaled 1 (-333) = F64.fin false 4503599627370496 (-385) := rfl
  have h1 : F64.scaled 5 (-333) = F64.fin false 5629499534213120 (-383) := rfl
  simp only [h0, h1, F64.zero, F64.toRat, List.map]
  norm_num

/-- Counterexample to C7 as stated.  Both rows are finite and satisfy the triangle
inequality.  For `(2^600, 2^600, 2^600)` the radicand overflows and the result is
`+inf`, not a finite value.  For `(3 * 2^1022, 2^1023, 2^1022)` the first factor
overflows and the second is 0: the radicand is `inf * 0`, and the result is NaN. -/
theorem doublearea_l_f64_overflow :
    doublearea_l_f64 false
        (Mat.ofRows F64.zero 3
          [[F64.scaled 1 600, F64.scaled 1 600, F64.scaled 1 600]]) = .ok [F64.inf false] ∧
      doublearea_l_f64 false
        (Mat.ofRows F64.zero 3
          [[F64.scaled 3 1022, F64.scaled 1 1023, F64.scaled 1 1022]]) = .ok [F64.nan] ∧
      [[F64.scaled 1 600, F64.scaled 1 600, F64.scaled 1 600],
         [F64.scaled 3 1022, F64.scaled 1 1023, F64.scaled 1 1022]].all (List.all · F64.isFinite) = true ∧
      [[F64.scaled 3 1022, F64.scaled 1 1023, F64.scaled 1 1022]].map (List.map F64.toRat)
        = [[3 * 2 ^ 1022, 2 ^ 1023, 2 ^ 1022]] ∧
      (3 : ℚ) * 2 ^ 1022 ≤ 2 ^ 1023 + 2 ^ 1022 := by
  refine ⟨rfl, rfl, rfl, ?_, by norm_num⟩
  have h0 : F64.scaled 1 1022 = F64.fin false 4503599627370496 (970) := rfl
  have h1 : F64.scaled 1 1023 = F64.fin false 4503599627370496 (971) := rfl
  have h2 : F64.scaled 3 1022 = F64.fin false 6755399441055744 (971) := rfl
  simp only [h0, h1, h2, F64.zero, F64.toRat, List.map]
  norm_num

/-- Counterexample to C9 as stated.  The three corners lie on the line `y = 3x`
(`v2 = v0 + t*(v1 - v0)` with `t = (1 - 5/2^58) * (4/3)`), yet the entry is `2^-53`, not
0; and with corners 0 and 2 exchanged the entry is `+0`, not the negated value
`-2^-53`. -/
theorem doublearea_f64_dim2_collinear :
    doublearea_f64 false
        (Mat.ofRows F64.zero 2
          [[F64.ofInt 1, F64.ofInt 3],
           [F64.scaled 1 (-2), F64.scaled 3 (-2)],
           [F64.scaled 5 (-58), F64.scaled 15 (-58)]])
        (Mat.ofRows 0 3 [[0, 1, 2]]) = .ok [F64.scaled 1 (-53)] ∧
      doublearea_f64 false
        (Mat.ofRows F64.zero 2
          [[F64.ofInt 1, F64.ofInt 3],
           [F64.scaled 1 (-2), F64.scaled 3 (-2)],
           [F64.scaled 5 (-58), F64.scaled 15 (-58)]])
        (swapCorners (Mat.ofRows 0 3 [[0, 1, 2]]) 0 2) = .ok [F64.zero] ∧
      F64.neg (F64.scaled 1 (-53)) ≠ F64.zero ∧
      F64.toRat (F64.scaled 1 (-53)) = 1 / 2 ^ 53 ∧
      [[F64.ofInt 1, F64.ofInt 3],
         [F64.scaled 1 (-2), F64.scaled 3 (-2)],
         [F64.scaled 5 (-58), F64.scaled 15 (-58)]].map (List.map F64.toRat)
        = [[1, 3], [1 / 2 ^ 2, 3 / 2 ^ 2], [5 / 2 ^ 58, 15 / 2 ^ 58]] ∧
      collinear
        (Mat.ofRows (0 : ℚ) 2
          [[1, 3], [1 / 2 ^ 2, 3 / 2 ^ 2], [5 / 2 ^ 58, 15 / 2 ^ 58]])
        (Mat.ofRows 0 3 [[0, 1, 2]]) 0 := by
  refine ⟨rfl, rfl, by decide, ?_, ?_, ?_⟩
  · have h0 : F64.scaled 1 (-53) = F64.fin false 4503599627370496 (-105) := rfl
    simp only [h0, F64.zero, F64.toRat, List.map]
    norm_num
  · have h0 : F64.scaled 1 (-2) = F64.fin false 4503599627370496 (-54) := rfl
    have h1 : F64.ofInt 1 = F64.fin false 4503599627370496 (-52) := rfl
    have h2 : F64.scaled 3 (-2) = F64.fin false 6755399441055744 (-53) := rfl
    have h3 : F64.ofInt 3 = F64.fin false 6755399441055744 (-51) := rfl
    have h4 : F64.scaled 5 (-58) = F64.fin false 5629499534213120 (-108) := rfl
    have h5 : F64.scaled 15 (-58) = F64.fin false 8444249301319680 (-107) := rfl
    simp only [h0, h1, h2, h3, h4, h5, F64.zero, F64.toRat, List.map]
    norm_num
  · refine Or.inl ⟨(1 - 5 / 2 ^ 58) * (4 / 3), fun k hk => ?_⟩
    interval_cases k
    · simp [corner, Mat.ofRows]
      norm_num
    · simp [corner, Mat.ofRows]
      norm_num

/-- Counterexample to C10 as stated.  In dimension 3 the projected area onto (x,y) is
`inf - inf`, NaN, and so is the entry.  In dimension 4 the measured lengths of the
degenerate triangle `(0,0,0,0), (1,1,1,0), (3,3,3,0)` are the rounded values of
`sqrt 12`, `sqrt 27` and `sqrt 3`; they violate the triangle inequality, the radicand
is negative and the entry is NaN (with assertions enabled the NaN assertion fails). -/
theorem doublearea_f64_nan :
    doublearea_f64 false
        (Mat.ofRows F64.zero 3
          [[F64.scaled 1 600, F64.zero, F64.zero],
           [F64.zero, F64.scaled 1 600, F64.zero],
           [F64.scaled (-1) 600, F64.scaled (-1) 600, F64.zero]])
        (Mat.ofRows 0 3 [[0, 1, 2]]) = .ok [F64.nan] ∧
      doublearea_f64 false
        (Mat.ofRows F64.zero 4
          [[F64.zero, F64.zero, F64.zero, F64.zero],
           [F64.ofInt 1, F64.ofInt 1, F64.ofInt 1, F64.zero],
           [F64.ofInt 3, F64.ofInt 3, F64.ofInt 3, F64.zero]])
        (Mat.ofRows 0 3 [[0, 1, 2]]) = .ok [F64.nan] ∧
      doublearea_f64 true
        (Mat.ofRows F64.zero 4
          [[F64.zero, F64.zero, F64.zero, F64.zero],
           [F64.ofInt 1, F64.ofInt 1, F64.ofInt 1, F64.zero],
           [F64.ofInt 3, F64.ofInt 3, F64.ofInt 3, F64.zero]])
        (Mat.ofRows 0 3 [[0, 1, 2]]) = .error .producedNaN :=
  ⟨rfl, rfl, rfl⟩

/-- Counterexample to C16 as stated.  The row `(5, 1, 1) * 2^-333` is sorted, its entries
are non-negative and `a > b + c`; the radicand `-525 * 2^-1332` is rounded to `-0`, whose
square root is `-0`, not NaN: the NaN assertion passes and the call with assertions
enabled completes. -/
theorem kernelRow_f64_underflow :
    kahanArg_f64 (F64.scaled 5 (-333)) (F64.scaled 1 (-333)) (F64.scaled 1 (-333))
        = F64.fin true 0 (-1074) ∧
      kernelRow_f64 true (sort_f64
        (Mat.ofRows F64.zero 3
            [[F64.scaled 5 (-333), F64.scaled 1 (-333), F64.scaled 1 (-333)]])) 0
          = .ok (F64.fin true 0 (-1074)) ∧
      doublearea_l_f64 true
        (Mat.ofRows F64.zero 3
          [[F64.scaled 5 (-333), F64.scaled 1 (-333), F64.scaled 1 (-333)]])
          = .ok [F64.fin true 0 (-1074)] ∧
      [[F64.scaled 5 (-333), F64.scaled 1 (-333), F64.scaled 1 (-333)]].map (List.map F64.toRat)
        = [[5 / 2 ^ 333, 1 / 2 ^ 333, 1 / 2 ^ 333]] ∧
      (0 : ℚ) ≤ 1 / 2 ^ 333 ∧ (1 : ℚ) / 2 ^ 333 ≤ 5 / 2 ^ 333 ∧
      (1 : ℚ) / 2 ^ 333 + 1 / 2 ^ 333 < 5 / 2 ^ 333 := by
  refine ⟨rfl, rfl, rfl, ?_, by positivity, by norm_num, by norm_num⟩
  have h0 : F64.scaled 1 (-333) = F64.fin false 4503599627370496 (-385) := rfl
  have h1 : F64.scaled 5 (-333) = F64.fin false 5629499534213120 (-383) := rfl
  simp only [h0, h1, F64.zero, F64.toRat, List.map]
  norm_num

/-- Counterexample to C18 as stated.  The 2D path returns `2^600` for the triangle, but
the 3D path on the table extended by a zero third coordinate squares that value,
overflows and returns `+inf`, which is not the absolute value of `2^600`. -/
theorem doublearea_f64_extendZero_overflow :
    doublearea_f64 false
        (Mat.ofRows F64.zero 2
          [[F64.zero, F64.zero],
           [F64.scaled 1 300, F64.zero],
           [F64.zero, F64.scaled 1 300]])
        (Mat.ofRows 0 3 [[0, 1, 2]]) = .ok [F64.scaled 1 600] ∧
      doublearea_f64 false
        (extendZero_f64 (Mat.ofRows F64.zero 2
            [[F64.zero, F64.zero],
             [F64.scaled 1 300, F64.zero],
             [F64.zero, F64.scaled 1 300]]))
        (Mat.ofRows 0 3 [[0, 1, 2]]) = .ok [F64.inf false] ∧
      F64.isFinite (F64.scaled 1 600) = true ∧ F64.isFinite (F64.inf false) = false :=
  ⟨rfl, rfl, rfl, rfl⟩

end DoubleArithmetic

end igl
